import Mathlib

/-!
Verification of the preimage-search cracker (`src/cracker.rs`).

The Rust code is shallowly embedded: fixed-size byte arrays (`&[u8;512]`,
`&[u32;32]`, `&[u8;32]`) become total functions `Nat → Nat` whose relevant
indices carry byte/word values, growable vectors (`Vec<u8>`, `Vec<Vec<u8>>`)
become `List Nat` / `List (List Nat)`, and `u8` arithmetic (`^`, `*`, `>>`,
`&`) becomes the corresponding `Nat` operation (no overflow occurs: all
values stay below 256 because matrix entries are bits).  Indexing `v[i]`
becomes `List.getD v i 0` (resp. `[]` for rows); every index used by the
algorithm is in range, where it matters theorems carry the corresponding
byte-range hypotheses.  `itertools::multi_cartesian_product` is embedded as
`multi_cartesian_product` below, producing tuples in the same order (first
factor slowest).  Early `return` out of the `crack` loop is embedded by the
explicitly recursive `crack_loop`.
-/

set_option maxRecDepth 40000

/-- Reverse Stage 3: all pairs `(i, j)` with
`confusion[i] ^ confusion[j + 256] == char` (`xor_match` in the source);
the two nested `for` loops over `0..256` pushing into `res` become nested
`flatMap`s over `List.range 256`. -/
def xor_match (confusion : Nat → Nat) (char : Nat) : List (Nat × Nat) :=
  (List.range 256).flatMap (fun i =>
    (List.range 256).flatMap (fun j =>
      if confusion i ^^^ confusion (j + 256) = char then [(i, j)] else []))

/-- The 32×32 bit matrix of the diffusion stage: row `i` column `j` holds
`(diffusion[i] >> j) & 1` (`compute_matrix` in the source). -/
def compute_matrix (diffusion : Nat → Nat) : List (List Nat) :=
  (List.range 32).map (fun i => (List.range 32).map (fun j => (diffusion i >>> j) &&& 1))

/-- Matrix–vector product with bitwise-xor as vector addition
(`matrix_mult` in the source): `res[i] = XOR_j mat[i][j] * vec[j]`,
both loops running over `0..vec.len()`. -/
def matrix_mult (mat : List (List Nat)) (vec : List Nat) : List Nat :=
  (List.range vec.length).map (fun i =>
    (List.range vec.length).foldl (fun s j => s ^^^ (mat.getD i []).getD j 0 * vec.getD j 0) 0)

/-- Swaps row `i` and row `j` (`swap` in the source). -/
def swap (matrix : List (List Nat)) (i j : Nat) : List (List Nat) :=
  (matrix.set i (matrix.getD j [])).set j (matrix.getD i [])

/-- Keeps row `i` and xors it into row `j` (`add` in the source). -/
def add (matrix : List (List Nat)) (i j : Nat) : List (List Nat) :=
  matrix.set j (List.zipWith (fun nj ni => nj ^^^ ni) (matrix.getD j []) (matrix.getD i []))

/-- The 32×32 identity matrix that `compute_inverse` starts from
(`res[i][i] = 1` on a zero matrix). -/
def identityMatrix : List (List Nat) :=
  (List.range 32).map (fun i => (List.range 32).map (fun j => if j = i then 1 else 0))

/-- One conditional row elimination of `compute_inverse`'s inner loops:
`if current[j][i] == 1 { add(current, i, j); add(res, i, j); }`,
acting on the state `(current, res)`. -/
def addIf (i : Nat) (st : List (List Nat) × List (List Nat)) (j : Nat) :
    List (List Nat) × List (List Nat) :=
  if (st.1.getD j []).getD i 0 = 1 then (add st.1 i j, add st.2 i j) else st

/-- The pivot phase of `compute_inverse`'s column `i`: if `current[i][i] == 0`,
scan rows `i+1..32` downward for the first row with a 1 in column `i` and swap
it up (in both matrices); otherwise leave the state alone. -/
def pivotStep (i : Nat) (st : List (List Nat) × List (List Nat)) :
    List (List Nat) × List (List Nat) :=
  if (st.1.getD i []).getD i 0 = 0 then
    match (List.range' (i + 1) (31 - i)).find? (fun j => (st.1.getD j []).getD i 0 == 1) with
    | some j => (swap st.1 i j, swap st.2 i j)
    | none => st
  else st

/-- The whole body of `compute_inverse`'s outer loop for column `i`:
pivot phase, then eliminate down (`j in i+1..32`), then eliminate up
(`j in 0..i`), each elimination conditional on the evolving `current`. -/
def elimStep (i : Nat) (st : List (List Nat) × List (List Nat)) :
    List (List Nat) × List (List Nat) :=
  (List.range i).foldl (addIf i) ((List.range' (i + 1) (31 - i)).foldl (addIf i) (pivotStep i st))

/-- The outer `for i in 0..32` loop of `compute_inverse`, counting up from
`i` on the state `(current, res)` and finally returning `res`. -/
def gjLoopAux (i : Nat) (st : List (List Nat) × List (List Nat)) : List (List Nat) :=
  if _h : i < 32 then gjLoopAux (i + 1) (elimStep i st) else st.2
termination_by 32 - i

/-- Gauss–Jordan elimination mirroring all row operations onto an identity
matrix (`compute_inverse` in the source); returns the mirrored matrix. -/
def compute_inverse (matrix : List (List Nat)) : List (List Nat) :=
  gjLoopAux 0 (matrix, identityMatrix)

/-- Bucket `confusion[c]` receives `c`, for `c in 0..256`
(`build_lookup_table` in the source). -/
def build_lookup_table (confusion : Nat → Nat) : List (List Nat) :=
  (List.range 256).foldl
    (fun res c => res.set (confusion c) (res.getD (confusion c) [] ++ [c]))
    (List.replicate 256 [])

/-- `itertools::multi_cartesian_product`: all tuples picking one element from
each factor, first factor varying slowest. -/
def multi_cartesian_product {α : Type} : List (List α) → List (List α)
  | [] => [[]]
  | l :: ls => l.flatMap (fun x => (multi_cartesian_product ls).map (fun xs => x :: xs))

/-- Undo one round on every candidate (`reverse_targets` in the source):
preimage through the inverse matrix, then per-position substitution
preimages; a candidate with any empty bucket is dropped, otherwise the full
Cartesian product of the buckets is emitted. -/
def reverse_targets (inverse lookup : List (List Nat)) (target_vectors : List (List Nat)) :
    List (List Nat) :=
  target_vectors.flatMap (fun target =>
    let preimage := matrix_mult inverse target
    let possible_inputs_product : List (Option (List Nat)) :=
      preimage.map (fun n =>
        let characters := lookup.getD n []
        if characters.isEmpty then none else some characters)
    if possible_inputs_product.any (fun op => op.isNone) then []
    else multi_cartesian_product (possible_inputs_product.map (fun op => op.getD [])))

/-- Lay a stage-3 possibility out as a 32-byte vector
(`possibility_vec` inside `crack`): pair `idx` lands at positions
`2*idx` and `2*idx+1` of an initially zero vector. -/
def possibility_vec (possibility : List (Nat × Nat)) : List Nat :=
  possibility.enum.foldl
    (fun v idxij => (v.set (2 * idxij.1) idxij.2.1).set (2 * idxij.1 + 1) idxij.2.2)
    (List.replicate 32 0)

/-- The enumeration loop of `crack`: reverse stage 2 and 1 `rounds` times on
each assembled possibility in order and return the first non-empty preimage
set (the `return target_vectors;` inside the `for` loop). -/
def crack_loop (inv lookup : List (List Nat)) (rounds : Nat) :
    List (List (Nat × Nat)) → List (List Nat)
  | [] => []
  | possibility :: rest =>
    let target_vectors := (reverse_targets inv lookup)^[rounds] [possibility_vec possibility]
    if target_vectors.isEmpty then crack_loop inv lookup rounds rest else target_vectors

/-- `crack` from the source: build the matrix, its inverse and the lookup
table, collect `xor_match` for the first 16 target bytes, and run the
first-success enumeration over their Cartesian product. -/
def crack (target diffusion confusion : Nat → Nat) (rounds : Nat) : List (List Nat) :=
  crack_loop (compute_inverse (compute_matrix diffusion)) (build_lookup_table confusion) rounds
    (multi_cartesian_product ((List.range 16).map (fun k => xor_match confusion (target k))))

/-! ### Analysis vocabulary -/

/-- Entry `(i, j)` of an embedded `Vec<Vec<u8>>` matrix. -/
def entry (M : List (List Nat)) (i j : Nat) : Nat := (M.getD i []).getD j 0

/-- A well-shaped 32×32 matrix. -/
def isMat32 (M : List (List Nat)) : Prop := M.length = 32 ∧ ∀ r ∈ M, r.length = 32

/-- All entries are bits. -/
def entries01 (M : List (List Nat)) : Prop := ∀ i j, entry M i j = 0 ∨ entry M i j = 1

/-- The GF(2) matrix underlying a bit-entried embedded matrix. -/
def toGF (M : List (List Nat)) : Matrix (Fin 32) (Fin 32) (ZMod 2) :=
  Matrix.of (fun i j => (entry M i.val j.val : ZMod 2))

/-- Bit `b` of a byte, as an element of GF(2). -/
def zbit (b x : Nat) : ZMod 2 := if x.testBit b then 1 else 0

/-- The GF(2) vector of `b`-th bits of a 32-byte vector. -/
def bitv (b : Nat) (v : List Nat) : Fin 32 → ZMod 2 := fun i => zbit b (v.getD i.val 0)

/-- Columns `0..i` of a matrix are unit columns (the part of the matrix the
Gauss–Jordan loop has already reduced). -/
def unitCols (i : Nat) (cur : List (List Nat)) : Prop :=
  ∀ k, k < i → ∀ r, r < 32 → entry cur r k = if r = k then 1 else 0

/-- Non-singularity of the underlying GF(2) matrix. -/
def detNZ (M : List (List Nat)) : Prop := (toGF M).det ≠ 0

/-- Invariant of the Gauss–Jordan outer loop before processing column `i`:
both matrices are well-shaped bit matrices, the mirrored matrix times the
input equals the current matrix over GF(2), the current matrix is still
non-singular, and the already-processed columns are unit columns. -/
def GJInv (M : List (List Nat)) (i : Nat) (st : List (List Nat) × List (List Nat)) : Prop :=
  isMat32 st.1 ∧ isMat32 st.2 ∧ entries01 st.1 ∧ entries01 st.2 ∧
    toGF st.2 * toGF M = toGF st.1 ∧ detNZ st.1 ∧ unitCols i st.1

/-- One forward round as the spec describes it (§1, §8 Round-trip and claim
C2): byte-wise substitution through the first half of the confusion table
followed by multiplication by the diffusion matrix. -/
def forward_round (confusion : Nat → Nat) (mat : List (List Nat)) (v : List Nat) : List Nat :=
  matrix_mult mat (v.map confusion)

/-- The spec's forward pipeline output (§8 Round-trip): `rounds` rounds of
substitution+diffusion, then the combination stage, which emits the 16 bytes
`confusion[w[2k]] ^ confusion[w[2k+1] + 256]`. -/
def forward_pipeline (confusion : Nat → Nat) (mat : List (List Nat)) (rounds : Nat)
    (v : List Nat) : List Nat :=
  (List.range 16).map (fun k =>
    confusion (((forward_round confusion mat)^[rounds] v).getD (2 * k) 0) ^^^
      confusion (((forward_round confusion mat)^[rounds] v).getD (2 * k + 1) 0 + 256))

/-! ### Concrete scenario inputs (spec §8) -/

/-- Identity substitution: `confusion[c] = c` for `c < 256`,
`confusion[c + 256] = 0` for all `c`. -/
def identConf : Nat → Nat := fun c => if c < 256 then c else 0

/-- A confusion table that is identically zero, so that no pair xors to a
non-zero byte. -/
def zeroConf : Nat → Nat := fun _ => 0

/-- The identity diffusion table: word `i` has exactly bit `i` set. -/
def identDiffusion : Nat → Nat := fun i => 2 ^ i

/-- The all-zero 32-byte target. -/
def zeroTarget : Nat → Nat := fun _ => 0

/-- A target equal to `zeroTarget` on bytes 0..15 but with byte 16 set. -/
def tailTarget : Nat → Nat := fun k => if k = 16 then 1 else 0

/-- A target whose byte 0 is 1 (used with `zeroConf`, whose stage-3 match set
for 1 is empty). -/
def oneTarget : Nat → Nat := fun k => if k = 0 then 1 else 0

/-- A near-identity substitution where inputs 0,1 collide on output 0 and
inputs 2,3 collide on output 2 (two non-singleton lookup buckets). -/
def conf4 : Nat → Nat := fun c => if c = 1 then 0 else if c = 3 then 2 else if c < 256 then c else 0

/-- A candidate whose preimage positions hit the two 2-element buckets of
`conf4` at positions 0 and 1 and the singleton bucket of 4 everywhere else. -/
def target4 : List Nat := 0 :: 2 :: List.replicate 30 4

/-- The four predecessors of `target4` under `conf4`'s lookup buckets. -/
def fourOutputs : List (List Nat) :=
  [0 :: 2 :: List.replicate 30 4, 0 :: 3 :: List.replicate 30 4,
   1 :: 2 :: List.replicate 30 4, 1 :: 3 :: List.replicate 30 4]

/-- A lookup index with every bucket empty. -/
def emptyLookup : List (List Nat) := List.replicate 256 []

/-- The first stage-3 possibility enumerated in the identity scenario. -/
def firstPossibility : List (Nat × Nat) := List.replicate 16 (0, 0)

/-- The all-zero 32-byte vector. -/
def zeroVec : List Nat := List.replicate 32 0

/-! ### List utilities -/

theorem getD_map_range {α : Type} (n i : Nat) (f : Nat → α) (d : α) (h : i < n) :
    ((List.range n).map f).getD i d = f i := by
  simp [List.getD_eq_getElem?_getD, List.getElem?_map, List.getElem?_range h]

theorem length_foldl_set {α β : Type} (g : β → Nat) (gv : β → Nat → α) :
    ∀ (l : List β) (v : List α),
      (l.foldl (fun v p => v.set (g p) (gv p (g p))) v).length = v.length := by
  intro l
  induction l with
  | nil => intro v; rfl
  | cons a l ih => intro v; rw [List.foldl_cons, ih, List.length_set]

theorem sum_list_range {M : Type} [AddCommMonoid M] (f : Nat → M) :
    ∀ n, ((List.range n).map f).sum = ∑ j ∈ Finset.range n, f j := by
  intro n
  induction n with
  | zero => rfl
  | succ n ih => rw [List.range_succ, List.map_append, List.sum_append,
      Finset.sum_range_succ, ih]; simp

/-! ### Stage-3 matcher -/

theorem mem_xor_match {conf : Nat → Nat} {c : Nat} {i j : Nat} :
    (i, j) ∈ xor_match conf c ↔ i < 256 ∧ j < 256 ∧ conf i ^^^ conf (j + 256) = c := by
  unfold xor_match
  simp only [List.mem_flatMap, List.mem_range]
  constructor
  · rintro ⟨a, ha, b, hb, hmem⟩
    split at hmem
    · next hcond =>
      simp only [List.mem_singleton, Prod.mk.injEq] at hmem
      obtain ⟨rfl, rfl⟩ := hmem
      exact ⟨ha, hb, hcond⟩
    · simp at hmem
  · rintro ⟨hi, hj, hc⟩
    exact ⟨i, hi, j, hj, by simp [hc]⟩

theorem xor_match_zeroConf_one : xor_match zeroConf 1 = [] := by
  rw [List.eq_nil_iff_forall_not_mem]
  rintro ⟨i, j⟩ h
  rw [mem_xor_match] at h
  simp [zeroConf] at h

/-! ### Lookup index -/

theorem build_lookup_table_foldl (conf : Nat → Nat) :
    ∀ (L : List Nat) (res : List (List Nat)), res.length = 256 → ∀ b, b < 256 →
      ((L.foldl (fun res c => res.set (conf c) (res.getD (conf c) [] ++ [c])) res).getD b []) =
        res.getD b [] ++ L.filter (fun c => conf c == b) := by
  intro L
  induction L with
  | nil => intro res _ b _; simp
  | cons a L ih =>
    intro res hlen b hb
    rw [List.foldl_cons, List.filter_cons,
      ih _ (by rw [List.length_set]; exact hlen) b hb]
    by_cases hab : conf a = b
    · have hset : (res.set (conf a) (res.getD (conf a) [] ++ [a])).getD b [] =
          res.getD b [] ++ [a] := by
        subst hab
        simp [List.getD_eq_getElem?_getD, List.getElem?_set, hlen, hb]
      rw [hset]
      simp [hab, List.append_assoc]
    · have hset : (res.set (conf a) (res.getD (conf a) [] ++ [a])).getD b [] =
          res.getD b [] := by
        simp [List.getD_eq_getElem?_getD, List.getElem?_set, hab]
      rw [hset]
      simp [hab]

theorem build_lookup_table_getD (conf : Nat → Nat) (b : Nat) (hb : b < 256) :
    (build_lookup_table conf).getD b [] = (List.range 256).filter (fun c => conf c == b) := by
  unfold build_lookup_table
  rw [build_lookup_table_foldl conf _ _ (by simp) b hb]
  have hrep : (List.replicate 256 ([] : List Nat)).getD b [] = [] := by
    rw [List.getD_eq_getElem?_getD, List.getElem?_replicate]
    simp [hb]
  rw [hrep, List.nil_append]

theorem mem_build_lookup_table {conf : Nat → Nat} {b c : Nat} (hb : b < 256) :
    c ∈ (build_lookup_table conf).getD b [] ↔ c < 256 ∧ conf c = b := by
  rw [build_lookup_table_getD conf b hb]
  simp [List.mem_filter]

theorem build_lookup_table_congr {conf conf' : Nat → Nat}
    (h : ∀ c, c < 256 → conf c = conf' c) :
    build_lookup_table conf = build_lookup_table conf' := by
  unfold build_lookup_table
  have : ∀ (L : List Nat), (∀ c ∈ L, conf c = conf' c) → ∀ res : List (List Nat),
      L.foldl (fun res c => res.set (conf c) (res.getD (conf c) [] ++ [c])) res =
        L.foldl (fun res c => res.set (conf' c) (res.getD (conf' c) [] ++ [c])) res := by
    intro L
    induction L with
    | nil => intro _ res; rfl
    | cons a L ih =>
      intro hL res
      rw [List.foldl_cons, List.foldl_cons, hL a (by simp),
        ih (fun c hc => hL c (List.mem_cons_of_mem _ hc))]
  exact this _ (fun c hc => h c (List.mem_range.mp hc)) _

/-! ### Cartesian products -/

theorem mem_multi_cartesian_product {α : Type} :
    ∀ {Ls : List (List α)} {v : List α},
      v ∈ multi_cartesian_product Ls ↔ List.Forall₂ (· ∈ ·) v Ls := by
  intro Ls
  induction Ls with
  | nil =>
    intro v
    simp [multi_cartesian_product, List.forall₂_nil_right_iff]
  | cons l ls ih =>
    intro v
    simp only [multi_cartesian_product, List.mem_flatMap, List.mem_map]
    constructor
    · rintro ⟨x, hx, w, hw, rfl⟩
      exact List.Forall₂.cons hx (ih.mp hw)
    · intro h
      cases h with
      | cons hx hw => exact ⟨_, hx, _, ih.mpr hw, rfl⟩

theorem length_multi_cartesian_product {α : Type} :
    ∀ (Ls : List (List α)),
      (multi_cartesian_product Ls).length = (Ls.map List.length).prod := by
  intro Ls
  induction Ls with
  | nil => rfl
  | cons l ls ih =>
    simp only [multi_cartesian_product, List.length_flatMap, List.map_map, List.map_cons,
      List.prod_cons]
    have : (List.map (List.length ∘ fun x => (multi_cartesian_product ls).map (x :: ·)) l) =
        List.map (fun _ => (multi_cartesian_product ls).length) l := by
      apply List.map_congr_left; intro a _; simp
    rw [this, ih]
    simp [List.map_const', Nat.mul_comm]

theorem multi_cartesian_product_eq_nil {α : Type} :
    ∀ {Ls : List (List α)}, [] ∈ Ls → multi_cartesian_product Ls = [] := by
  intro Ls
  induction Ls with
  | nil => intro h; simp at h
  | cons l ls ih =>
    intro h
    rcases List.mem_cons.mp h with h | h
    · subst h; rfl
    · simp only [multi_cartesian_product, ih h]
      simp

theorem multi_cartesian_product_head {α : Type} (d : α) :
    ∀ {Ls : List (List α)}, (∀ l ∈ Ls, l ≠ []) →
      ∃ rest, multi_cartesian_product Ls = (Ls.map (fun l => l.headD d)) :: rest := by
  intro Ls
  induction Ls with
  | nil => intro _; exact ⟨[], rfl⟩
  | cons l ls ih =>
    intro h
    obtain ⟨rest', hrest'⟩ := ih (fun x hx => h x (List.mem_cons_of_mem _ hx))
    obtain ⟨x, t, rfl⟩ := List.exists_cons_of_ne_nil (h l (List.mem_cons_self l ls))
    refine ⟨(multi_cartesian_product ls).tail.map (x :: ·) ++
        t.flatMap (fun y => (multi_cartesian_product ls).map (y :: ·)), ?_⟩
    simp only [multi_cartesian_product, List.flatMap_cons, hrest']
    simp

theorem multi_cartesian_product_singletons {α : Type} :
    ∀ (vs : List α), multi_cartesian_product (vs.map (fun a => [a])) = [vs] := by
  intro vs
  induction vs with
  | nil => rfl
  | cons a vs ih => simp [multi_cartesian_product, ih]

/-! ### Matrix–vector product -/

theorem getElem?_eq_some_getD {α : Type} {l : List α} {n : Nat} (d : α) (h : n < l.length) :
    l[n]? = some (l.getD n d) := by
  rw [List.getElem?_eq_getElem h, List.getD_eq_getElem?_getD, List.getElem?_eq_getElem h]
  rfl

theorem length_matrix_mult (M : List (List Nat)) (v : List Nat) :
    (matrix_mult M v).length = v.length := by
  simp [matrix_mult]

theorem matrix_mult_getD (M : List (List Nat)) (v : List Nat) {i : Nat} (h : i < v.length) :
    (matrix_mult M v).getD i 0 =
      (List.range v.length).foldl (fun s j => s ^^^ entry M i j * v.getD j 0) 0 := by
  unfold matrix_mult
  rw [getD_map_range _ _ _ _ (by simpa using h)]
  rfl

theorem foldl_xor_lt (k : Nat) (g : Nat → Nat) :
    ∀ (l : List Nat) (s : Nat), s < 2 ^ k → (∀ j ∈ l, g j < 2 ^ k) →
      l.foldl (fun s j => s ^^^ g j) s < 2 ^ k := by
  intro l
  induction l with
  | nil => intro s hs _; exact hs
  | cons a l ih =>
    intro s hs hg
    rw [List.foldl_cons]
    exact ih _ (Nat.xor_lt_two_pow hs (hg a (by simp)))
      (fun j hj => hg j (List.mem_cons_of_mem _ hj))

theorem foldl_xor_zero (g : Nat → Nat) :
    ∀ (l : List Nat), (∀ j ∈ l, g j = 0) → ∀ (s : Nat),
      l.foldl (fun s j => s ^^^ g j) s = s := by
  intro l
  induction l with
  | nil => intro _ s; rfl
  | cons a l ih =>
    intro hg s
    rw [List.foldl_cons, hg a (by simp), Nat.xor_zero]
    exact ih (fun j hj => hg j (List.mem_cons_of_mem _ hj)) s

theorem getD_mem_of_lt {α : Type} {l : List α} {n : Nat} (d : α) (h : n < l.length) :
    l.getD n d ∈ l := by
  rw [List.getD_eq_getElem?_getD, List.getElem?_eq_getElem h]
  exact List.getElem_mem h

theorem matrix_mult_lt {M : List (List Nat)} {v : List Nat} (h01 : entries01 M)
    (hv : ∀ a ∈ v, a < 256) : ∀ a ∈ matrix_mult M v, a < 256 := by
  intro a ha
  unfold matrix_mult at ha
  simp only [List.mem_map, List.mem_range] at ha
  obtain ⟨i, _, rfl⟩ := ha
  have h256 : (256 : Nat) = 2 ^ 8 := by norm_num
  rw [h256]
  apply foldl_xor_lt 8 _ _ 0 (by norm_num)
  intro j hj
  rcases h01 i j with h | h
  · rw [show (M.getD i []).getD j 0 = entry M i j from rfl, h, Nat.zero_mul]
    norm_num
  · rw [show (M.getD i []).getD j 0 = entry M i j from rfl, h, Nat.one_mul, ← h256]
    exact hv _ (getD_mem_of_lt 0 (List.mem_range.mp hj))

theorem getD_replicate_zero (n j : Nat) : (List.replicate n (0 : Nat)).getD j 0 = 0 := by
  rw [List.getD_eq_getElem?_getD, List.getElem?_replicate]
  split <;> rfl

theorem matrix_mult_replicate_zero (M : List (List Nat)) (n : Nat) :
    matrix_mult M (List.replicate n 0) = List.replicate n 0 := by
  unfold matrix_mult
  rw [List.length_replicate]
  have hfold : ∀ i ∈ List.range n,
      (List.range n).foldl
        (fun s j => s ^^^ (M.getD i []).getD j 0 * (List.replicate n 0).getD j 0) 0 = 0 := by
    intro i _
    exact foldl_xor_zero _ _ (fun j _ => by rw [getD_replicate_zero, Nat.mul_zero]) 0
  rw [List.map_congr_left hfold]
  simp [List.map_const']

/-! ### Bits of xor-folds -/

theorem zbit_xor (b x y : Nat) : zbit b (x ^^^ y) = zbit b x + zbit b y := by
  unfold zbit
  rw [Nat.testBit_xor]
  cases hx : x.testBit b <;> cases hy : y.testBit b <;> simp [hx, hy, CharTwo.add_self_eq_zero]

theorem zbit_zero (b : Nat) : zbit b 0 = 0 := by
  simp [zbit]

theorem zbit_testBit_eq {b x y : Nat} (h : zbit b x = zbit b y) :
    x.testBit b = y.testBit b := by
  unfold zbit at h
  cases hx : x.testBit b <;> cases hy : y.testBit b <;> rw [hx, hy] at h <;> first
    | rfl
    | exact absurd h (by decide)

theorem foldl_xor_zbit (b : Nat) (g : Nat → Nat) :
    ∀ (l : List Nat) (s : Nat),
      zbit b (l.foldl (fun s j => s ^^^ g j) s) =
        zbit b s + (l.map (fun j => zbit b (g j))).sum := by
  intro l
  induction l with
  | nil => intro s; simp
  | cons a l ih =>
    intro s
    rw [List.foldl_cons, ih, zbit_xor]
    simp [add_assoc]

theorem bitv_matrix_mult {M : List (List Nat)} {v : List Nat} (h01 : entries01 M)
    (hv : v.length = 32) (b : Nat) :
    bitv b (matrix_mult M v) = (toGF M).mulVec (bitv b v) := by
  funext i
  have hi : (i : Nat) < v.length := by rw [hv]; exact i.isLt
  show zbit b ((matrix_mult M v).getD i 0) = _
  rw [matrix_mult_getD M v hi, foldl_xor_zbit, zbit_zero, zero_add, hv, sum_list_range]
  show _ = ∑ j : Fin 32, (entry M i.val j.val : ZMod 2) * zbit b (v.getD j.val 0)
  rw [Fin.sum_univ_eq_sum_range (fun j => (entry M i.val j : ZMod 2) * zbit b (v.getD j 0)) 32]
  apply Finset.sum_congr rfl
  intro j _
  rcases h01 i.val j with h | h
  · rw [h]
    simp [zbit_zero]
  · rw [h]
    simp

theorem matrix_mult_cancel {A B : List (List Nat)} {v : List Nat}
    (hA : entries01 A) (hB : entries01 B) (hv : v.length = 32)
    (hAB : toGF A * toGF B = 1) :
    matrix_mult A (matrix_mult B v) = v := by
  have hlen : (matrix_mult B v).length = 32 := by rw [length_matrix_mult, hv]
  have hlen2 : (matrix_mult A (matrix_mult B v)).length = 32 := by
    rw [length_matrix_mult, hlen]
  have hbit : ∀ b, bitv b (matrix_mult A (matrix_mult B v)) = bitv b v := by
    intro b
    rw [bitv_matrix_mult hA hlen, bitv_matrix_mult hB hv, Matrix.mulVec_mulVec, hAB,
      Matrix.one_mulVec]
  apply List.ext_getElem?
  intro n
  by_cases hn : n < 32
  · rw [getElem?_eq_some_getD 0 (by rw [hlen2]; exact hn), getElem?_eq_some_getD 0 (by rw [hv]; exact hn)]
    congr 1
    apply Nat.eq_of_testBit_eq
    intro b
    exact zbit_testBit_eq (congrFun (hbit b) ⟨n, hn⟩)
  · rw [List.getElem?_eq_none (by rw [hlen2]; omega), List.getElem?_eq_none (by rw [hv]; omega)]

/-! ### Row operations -/

theorem getD_set_row {α : Type} (l : List α) (n : Nat) (a : α) (r : Nat) (d : α)
    (hn : n < l.length) :
    (l.set n a).getD r d = if r = n then a else l.getD r d := by
  rw [List.getD_eq_getElem?_getD, List.getElem?_set, List.getD_eq_getElem?_getD]
  by_cases h : n = r
  · subst h; simp [hn]
  · simp [h, Ne.symm h]

theorem row_length {M : List (List Nat)} (h32 : isMat32 M) {r : Nat} (h : r < 32) :
    (M.getD r []).length = 32 :=
  h32.2 _ (getD_mem_of_lt [] (by rw [h32.1]; exact h))

theorem getD_swap {M : List (List Nat)} {i j : Nat} (hi : i < M.length) (hj : j < M.length)
    (r : Nat) :
    (swap M i j).getD r [] =
      if r = j then M.getD i [] else if r = i then M.getD j [] else M.getD r [] := by
  unfold swap
  rw [getD_set_row _ j _ r [] (by rw [List.length_set]; exact hj)]
  by_cases hrj : r = j
  · simp [hrj]
  · simp only [if_neg hrj]
    rw [getD_set_row _ i _ r [] hi]

theorem entry_swap {M : List (List Nat)} {i j : Nat} (hi : i < M.length) (hj : j < M.length)
    (r c : Nat) :
    entry (swap M i j) r c =
      if r = j then entry M i c else if r = i then entry M j c else entry M r c := by
  unfold entry
  rw [getD_swap hi hj]
  split
  · rfl
  · split <;> rfl

theorem getD_zipWith_xor :
    ∀ (u w : List Nat), u.length = w.length → ∀ c,
      (List.zipWith (fun a b => a ^^^ b) u w).getD c 0 = u.getD c 0 ^^^ w.getD c 0 := by
  intro u
  induction u with
  | nil =>
    intro w h c
    rw [List.length_nil] at h
    rw [List.eq_nil_of_length_eq_zero h.symm]
    simp
  | cons a u ih =>
    intro w h c
    cases w with
    | nil => simp at h
    | cons b w =>
      cases c with
      | zero => simp
      | succ c => simpa using ih w (by simpa using h) c

theorem entry_add {M : List (List Nat)} (h32 : isMat32 M) {i j : Nat} (hi : i < 32)
    (hj : j < 32) (r c : Nat) :
    entry (add M i j) r c = if r = j then entry M j c ^^^ entry M i c else entry M r c := by
  unfold add entry
  rw [getD_set_row _ j _ r [] (by rw [h32.1]; exact hj)]
  by_cases hrj : r = j
  · rw [if_pos hrj, if_pos hrj,
      getD_zipWith_xor _ _ (by rw [row_length h32 hj, row_length h32 hi]) c]
  · rw [if_neg hrj, if_neg hrj]

theorem isMat32_swap {M : List (List Nat)} (h32 : isMat32 M) {i j : Nat} (hi : i < 32)
    (hj : j < 32) : isMat32 (swap M i j) := by
  constructor
  · simp [swap, List.length_set, h32.1]
  · intro r hr
    unfold swap at hr
    rcases List.mem_or_eq_of_mem_set hr with hr | hr
    · rcases List.mem_or_eq_of_mem_set hr with hr | hr
      · exact h32.2 _ hr
      · rw [hr]; exact row_length h32 hj
    · rw [hr]; exact row_length h32 hi

theorem isMat32_add {M : List (List Nat)} (h32 : isMat32 M) {i j : Nat} (hi : i < 32)
    (hj : j < 32) : isMat32 (add M i j) := by
  constructor
  · simp [add, List.length_set, h32.1]
  · intro r hr
    unfold add at hr
    rcases List.mem_or_eq_of_mem_set hr with hr | hr
    · exact h32.2 _ hr
    · rw [hr, List.length_zipWith, row_length h32 hj, row_length h32 hi]
      simp

theorem entries01_swap {M : List (List Nat)} (h01 : entries01 M) (h32 : isMat32 M)
    {i j : Nat} (hi : i < 32) (hj : j < 32) : entries01 (swap M i j) := by
  intro r c
  rw [entry_swap (by rw [h32.1]; exact hi) (by rw [h32.1]; exact hj)]
  split
  · exact h01 i c
  · split
    · exact h01 j c
    · exact h01 r c

theorem entries01_add {M : List (List Nat)} (h01 : entries01 M) (h32 : isMat32 M)
    {i j : Nat} (hi : i < 32) (hj : j < 32) : entries01 (add M i j) := by
  intro r c
  rw [entry_add h32 hi hj]
  split
  · rcases h01 j c with h1 | h1 <;> rcases h01 i c with h2 | h2 <;> rw [h1, h2] <;> decide
  · exact h01 r c

/-! ### GF(2) forms of the row operations -/

theorem natCast_xor_zmod2 (a b : Nat) : ((a ^^^ b : Nat) : ZMod 2) = (a : ZMod 2) + b := by
  have hmod : ∀ x : Nat, x % 2 = if x.testBit 0 then 1 else 0 := by
    intro x
    rcases Nat.mod_two_eq_zero_or_one x with h | h <;> simp [Nat.testBit_zero, h]
  rw [← ZMod.natCast_mod (a ^^^ b) 2, ← ZMod.natCast_mod a 2, ← ZMod.natCast_mod b 2,
    hmod (a ^^^ b), hmod a, hmod b, Nat.testBit_xor]
  cases ha : a.testBit 0 <;> cases hb : b.testBit 0 <;> decide

theorem toGF_swap {M : List (List Nat)} (h32 : isMat32 M) {i j : Nat} (hi : i < 32)
    (hj : j < 32) :
    toGF (swap M i j) =
      (toGF M).submatrix (Equiv.swap (⟨i, hi⟩ : Fin 32) ⟨j, hj⟩) id := by
  ext r c
  rw [Matrix.submatrix_apply, id_eq]
  show (entry (swap M i j) r.val c.val : ZMod 2) = (entry M _ c.val : ZMod 2)
  rw [entry_swap (by rw [h32.1]; exact hi) (by rw [h32.1]; exact hj), Equiv.swap_apply_def]
  by_cases h1 : (r : Nat) = i <;> by_cases h2 : (r : Nat) = j
  · have hij : i = j := h1.symm.trans h2
    subst hij
    have hr : r = ⟨i, hi⟩ := Fin.ext_iff.mpr h1
    simp [h1, h2, hr]
  · have hr : r = ⟨i, hi⟩ := Fin.ext_iff.mpr h1
    have hr2 : r ≠ ⟨j, hj⟩ := fun hh => h2 (congrArg Fin.val hh)
    have hij : i ≠ j := fun hh => h2 (h1.trans hh)
    simp [h1, h2, hr, hr2, hij]
  · have hr : r = ⟨j, hj⟩ := Fin.ext_iff.mpr h2
    have hr1 : r ≠ ⟨i, hi⟩ := fun hh => h1 (congrArg Fin.val hh)
    have hij : j ≠ i := fun hh => h1 (h2.trans hh)
    simp [h1, h2, hr, hr1, hij]
  · have hr1 : r ≠ ⟨i, hi⟩ := fun hh => h1 (congrArg Fin.val hh)
    have hr2 : r ≠ ⟨j, hj⟩ := fun hh => h2 (congrArg Fin.val hh)
    simp [h1, h2, hr1, hr2]

theorem submatrix_swap_mul {A B : Matrix (Fin 32) (Fin 32) (ZMod 2)} (σ : Equiv.Perm (Fin 32)) :
    (A.submatrix σ id) * B = (A * B).submatrix σ id := by
  ext r c
  rw [Matrix.submatrix_apply, Matrix.mul_apply, Matrix.mul_apply]
  rfl

theorem det_submatrix_swap_ne_zero {A : Matrix (Fin 32) (Fin 32) (ZMod 2)}
    (σ : Equiv.Perm (Fin 32)) (h : A.det ≠ 0) : (A.submatrix σ id).det ≠ 0 := by
  rw [Matrix.det_permute]
  rcases Int.units_eq_one_or (Equiv.Perm.sign σ) with hs | hs <;> rw [hs] <;> simpa

theorem toGF_add {M : List (List Nat)} (h32 : isMat32 M) {i j : Nat} (hi : i < 32)
    (hj : j < 32) :
    toGF (add M i j) =
      (toGF M).updateRow ⟨j, hj⟩ (toGF M ⟨j, hj⟩ + toGF M ⟨i, hi⟩) := by
  ext r c
  rw [Matrix.updateRow_apply]
  show (entry (add M i j) r.val c.val : ZMod 2) = _
  rw [entry_add h32 hi hj]
  by_cases h : (r : Nat) = j
  · have hr : r = ⟨j, hj⟩ := Fin.ext_iff.mpr h
    rw [if_pos h, if_pos hr, natCast_xor_zmod2]
    rfl
  · have hr : r ≠ ⟨j, hj⟩ := fun hh => h (congrArg Fin.val hh)
    rw [if_neg h, if_neg hr]
    rfl

theorem updateRow_add_mul (A B : Matrix (Fin 32) (Fin 32) (ZMod 2)) (i j : Fin 32) :
    (A.updateRow j (A j + A i)) * B = (A * B).updateRow j ((A * B) j + (A * B) i) := by
  ext r c
  by_cases h : r = j
  · subst h
    simp only [Matrix.mul_apply, Matrix.updateRow_self, Pi.add_apply, add_mul,
      Finset.sum_add_distrib]
  · simp only [Matrix.mul_apply, Matrix.updateRow_apply, if_neg h]

theorem det_updateRow_add_ne_zero {A : Matrix (Fin 32) (Fin 32) (ZMod 2)} {i j : Fin 32}
    (hij : j ≠ i) (h : A.det ≠ 0) : (A.updateRow j (A j + A i)).det ≠ 0 := by
  rw [Matrix.det_updateRow_add_self A hij]
  exact h

/-! ### The identity matrix -/

theorem entry_identityMatrix {r c : Nat} (hr : r < 32) (hc : c < 32) :
    entry identityMatrix r c = if c = r then 1 else 0 := by
  unfold identityMatrix entry
  rw [getD_map_range _ _ _ _ hr, getD_map_range _ _ _ _ hc]

theorem isMat32_identityMatrix : isMat32 identityMatrix := by
  constructor
  · simp [identityMatrix]
  · intro r hr
    simp only [identityMatrix, List.mem_map] at hr
    obtain ⟨i, _, rfl⟩ := hr
    simp

theorem entry_out_of_range {M : List (List Nat)} (h32 : isMat32 M) {r c : Nat}
    (h : ¬(r < 32 ∧ c < 32)) : entry M r c = 0 := by
  unfold entry
  by_cases hr : r < 32
  · have hc : ¬ c < 32 := fun hc => h ⟨hr, hc⟩
    rw [List.getD_eq_getElem?_getD (M.getD r []), List.getElem?_eq_none]
    · rfl
    · rw [row_length h32 hr]; omega
  · rw [List.getD_eq_getElem?_getD M, List.getElem?_eq_none]
    · rfl
    · rw [h32.1]; omega

theorem entries01_identityMatrix : entries01 identityMatrix := by
  intro r c
  by_cases h : r < 32 ∧ c < 32
  · rw [entry_identityMatrix h.1 h.2]
    split
    · right; rfl
    · left; rfl
  · rw [entry_out_of_range isMat32_identityMatrix h]
    left; rfl

theorem toGF_identityMatrix : toGF identityMatrix = 1 := by
  ext r c
  show (entry identityMatrix r.val c.val : ZMod 2) = _
  rw [entry_identityMatrix r.isLt c.isLt, Matrix.one_apply]
  by_cases h : (c : Nat) = r.val
  · rw [if_pos h, if_pos (Fin.ext_iff.mpr h.symm)]
    rfl
  · rw [if_neg h, if_neg fun hh => h (congrArg Fin.val hh.symm)]
    rfl

/-! ### Pivot existence on a non-singular matrix -/

theorem pivot_exists {cur : List (List Nat)} {i : Nat} (hi : i < 32)
    (h01 : entries01 cur) (hdet : (toGF cur).det ≠ 0) (hcols : unitCols i cur) :
    ∃ j, i ≤ j ∧ j < 32 ∧ entry cur j i = 1 := by
  by_contra hno
  push_neg at hno
  have hzero : ∀ j, i ≤ j → j < 32 → entry cur j i = 0 := by
    intro j h1 h2
    rcases h01 j i with h | h
    · exact h
    · exact absurd h (hno j h1 h2)
  apply hdet
  rw [← Matrix.exists_mulVec_eq_zero_iff]
  refine ⟨fun k => if (k : Nat) < i then (entry cur k.val i : ZMod 2)
    else if k = (⟨i, hi⟩ : Fin 32) then 1 else 0, ?_, ?_⟩
  · intro hv0
    have h := congrFun hv0 (⟨i, hi⟩ : Fin 32)
    simp at h
  · funext r
    simp only [Matrix.mulVec, Matrix.dotProduct, Pi.zero_apply]
    by_cases hr : (r : Nat) < i
    · have key : ∀ k : Fin 32,
          toGF cur r k * (if (k : Nat) < i then (entry cur k.val i : ZMod 2)
            else if k = (⟨i, hi⟩ : Fin 32) then 1 else 0) =
          (if k = r then (entry cur r.val i : ZMod 2) else 0) +
            (if k = (⟨i, hi⟩ : Fin 32) then (entry cur r.val i : ZMod 2) else 0) := by
        intro k
        by_cases hk : (k : Nat) < i
        · have hz : toGF cur r k = if r = k then 1 else 0 := by
            show (entry cur r.val k.val : ZMod 2) = _
            rw [hcols k.val hk r.val r.isLt]
            by_cases hrk : r.val = k.val
            · rw [if_pos hrk, if_pos (Fin.ext_iff.mpr hrk)]; rfl
            · rw [if_neg hrk, if_neg fun hh => hrk (congrArg Fin.val hh)]; rfl
          have hki : k ≠ (⟨i, hi⟩ : Fin 32) := by
            intro hh
            rw [hh] at hk
            exact lt_irrefl i hk
          rw [hz, if_pos hk, if_neg hki, add_zero]
          by_cases hrk : r = k
          · rw [if_pos hrk, one_mul, if_pos hrk.symm, hrk]
          · rw [if_neg hrk, zero_mul, if_neg fun hh => hrk hh.symm]
        · rw [if_neg hk]
          by_cases hki : k = (⟨i, hi⟩ : Fin 32)
          · have hri : k ≠ r := by
              intro hh
              rw [hki] at hh
              rw [← hh] at hr
              exact lt_irrefl i hr
            rw [if_pos hki, mul_one, if_neg hri, if_pos hki, zero_add, hki]
            rfl
          · have hkr : k ≠ r := by
              intro hh
              apply hk
              rw [congrArg Fin.val hh]
              exact hr
            rw [if_neg hki, mul_zero, if_neg hkr, if_neg hki, add_zero]
      rw [Finset.sum_congr rfl (fun k _ => key k), Finset.sum_add_distrib,
        Finset.sum_ite_eq' Finset.univ r (fun _ => (entry cur r.val i : ZMod 2)),
        Finset.sum_ite_eq' Finset.univ (⟨i, hi⟩ : Fin 32)
          (fun _ => (entry cur r.val i : ZMod 2))]
      simp only [Finset.mem_univ, if_pos]
      exact CharTwo.add_self_eq_zero _
    · apply Finset.sum_eq_zero
      intro k _
      by_cases hk : (k : Nat) < i
      · have hz : toGF cur r k = 0 := by
          show (entry cur r.val k.val : ZMod 2) = 0
          rw [hcols k.val hk r.val r.isLt, if_neg (by omega)]
          rfl
        rw [hz, zero_mul]
      · rw [if_neg hk]
        by_cases hki : k = (⟨i, hi⟩ : Fin 32)
        · rw [if_pos hki, mul_one, hki]
          show (entry cur r.val i : ZMod 2) = 0
          rw [hzero r.val (le_of_not_lt hr) r.isLt]
          rfl
        · rw [if_neg hki, mul_zero]

/-! ### Invariant preservation through the elimination loops -/

theorem addIf_step {M : List (List Nat)} {i : Nat} (hi : i < 32)
    {st : List (List Nat) × List (List Nat)} {j : Nat}
    (hj : j < 32) (hij : j ≠ i) (hinv : GJInv M i st) (hpiv : entry st.1 i i = 1) :
    GJInv M i (addIf i st j) ∧ entry (addIf i st j).1 i i = 1 ∧
      entry (addIf i st j).1 j i = 0 ∧
      (∀ r c, r ≠ j → entry (addIf i st j).1 r c = entry st.1 r c) := by
  obtain ⟨hc32, hr32, hc01, hr01, hrel, hdet, hcols⟩ := hinv
  unfold addIf
  by_cases hcond : (st.1.getD j []).getD i 0 = 1
  · rw [if_pos hcond]
    have hcond' : entry st.1 j i = 1 := hcond
    have hji' : (⟨j, hj⟩ : Fin 32) ≠ (⟨i, hi⟩ : Fin 32) :=
      fun hh => hij (congrArg Fin.val hh)
    refine ⟨⟨isMat32_add hc32 hi hj, isMat32_add hr32 hi hj,
      entries01_add hc01 hc32 hi hj, entries01_add hr01 hr32 hi hj, ?_, ?_, ?_⟩, ?_, ?_, ?_⟩
    · show toGF (add st.2 i j) * toGF M = toGF (add st.1 i j)
      rw [toGF_add hr32 hi hj, toGF_add hc32 hi hj, updateRow_add_mul, hrel]
    · show detNZ (add st.1 i j)
      unfold detNZ
      rw [toGF_add hc32 hi hj]
      exact det_updateRow_add_ne_zero hji' hdet
    · intro k hk r hr
      rw [entry_add hc32 hi hj]
      by_cases hrj : r = j
      · subst hrj
        have hik : i ≠ k := by omega
        rw [if_pos rfl, hcols k hk i hi, hcols k hk r hr, if_neg hik, Nat.xor_zero]
      · rw [if_neg hrj]
        exact hcols k hk r hr
    · show entry (add st.1 i j) i i = 1
      rw [entry_add hc32 hi hj, if_neg fun hh => hij hh.symm]
      exact hpiv
    · show entry (add st.1 i j) j i = 0
      rw [entry_add hc32 hi hj, if_pos rfl, hcond', hpiv, Nat.xor_self]
    · intro r c hr
      show entry (add st.1 i j) r c = entry st.1 r c
      rw [entry_add hc32 hi hj, if_neg hr]
  · rw [if_neg hcond]
    have hzero : entry st.1 j i = 0 := by
      rcases hc01 j i with h | h
      · exact h
      · exact absurd h hcond
    exact ⟨⟨hc32, hr32, hc01, hr01, hrel, hdet, hcols⟩, hpiv, hzero, fun _ _ _ => rfl⟩

theorem elimFold {M : List (List Nat)} {i : Nat} (hi : i < 32) :
    ∀ (L : List Nat), (∀ j ∈ L, j < 32 ∧ j ≠ i) →
      ∀ st, GJInv M i st → entry st.1 i i = 1 →
        GJInv M i (L.foldl (addIf i) st) ∧ entry (L.foldl (addIf i) st).1 i i = 1 ∧
          (∀ j ∈ L, entry (L.foldl (addIf i) st).1 j i = 0) ∧
          (∀ r c, r ∉ L → entry (L.foldl (addIf i) st).1 r c = entry st.1 r c) := by
  intro L
  induction L with
  | nil =>
    intro _ st hinv hpiv
    exact ⟨hinv, hpiv, by simp, fun r c _ => rfl⟩
  | cons j L ih =>
    intro hL st hinv hpiv
    obtain ⟨hj32, hji⟩ := hL j (by simp)
    obtain ⟨hinv1, hpiv1, hzero1, hpres1⟩ := addIf_step hi hj32 hji hinv hpiv
    obtain ⟨hinv2, hpiv2, hzero2, hpres2⟩ :=
      ih (fun x hx => hL x (List.mem_cons_of_mem _ hx)) _ hinv1 hpiv1
    rw [List.foldl_cons]
    refine ⟨hinv2, hpiv2, ?_, ?_⟩
    · intro j' hj'
      rcases List.mem_cons.mp hj' with rfl | hj'
      · by_cases hmem : j' ∈ L
        · exact hzero2 _ hmem
        · rw [hpres2 _ _ hmem]
          exact hzero1
      · exact hzero2 _ hj'
    · intro r c hr
      have hrL : r ∉ L := fun h => hr (List.mem_cons_of_mem _ h)
      have hrj : r ≠ j := fun h => hr (h ▸ List.mem_cons_self j L)
      rw [hpres2 _ _ hrL, hpres1 _ _ hrj]

theorem pivotStep_inv {M : List (List Nat)} {i : Nat} (hi : i < 32)
    {st : List (List Nat) × List (List Nat)} (hinv : GJInv M i st) :
    GJInv M i (pivotStep i st) ∧ entry (pivotStep i st).1 i i = 1 := by
  obtain ⟨hc32, hr32, hc01, hr01, hrel, hdet, hcols⟩ := hinv
  obtain ⟨j, hij, hj32, hj1⟩ := pivot_exists hi hc01 hdet hcols
  unfold pivotStep
  by_cases hpiv : (st.1.getD i []).getD i 0 = 0
  · rw [if_pos hpiv]
    have hjgt : i + 1 ≤ j := by
      by_contra hlt
      push_neg at hlt
      have hji : j = i := by omega
      rw [hji] at hj1
      have hzero : entry st.1 i i = 0 := hpiv
      have : (0 : Nat) = 1 := hzero.symm.trans hj1
      exact absurd this (by decide)
    have hmem : j ∈ List.range' (i + 1) (31 - i) := by
      rw [List.mem_range']
      exact ⟨j - (i + 1), by omega, by omega⟩
    have hex : ∃ x ∈ List.range' (i + 1) (31 - i), ((st.1.getD x []).getD i 0 == 1) = true :=
      ⟨j, hmem, by simp only [beq_iff_eq]; exact hj1⟩
    obtain ⟨j0, hfind⟩ := Option.isSome_iff_exists.mp (List.find?_isSome.mpr hex)
    rw [hfind]
    have hj0p := List.find?_some hfind
    rw [beq_iff_eq] at hj0p
    have hj0this : entry st.1 j0 i = 1 := hj0p
    have hj0mem := List.mem_of_find?_eq_some hfind
    rw [List.mem_range'] at hj0mem
    obtain ⟨t, ht, hteq⟩ := hj0mem
    have hj0hi : j0 < 32 := by omega
    have hi0ne : i ≠ j0 := by omega
    show GJInv M i (swap st.1 i j0, swap st.2 i j0) ∧
      entry (swap st.1 i j0, swap st.2 i j0).1 i i = 1
    refine ⟨⟨isMat32_swap hc32 hi hj0hi, isMat32_swap hr32 hi hj0hi,
      entries01_swap hc01 hc32 hi hj0hi, entries01_swap hr01 hr32 hi hj0hi, ?_, ?_, ?_⟩, ?_⟩
    · show toGF (swap st.2 i j0) * toGF M = toGF (swap st.1 i j0)
      rw [toGF_swap hc32 hi hj0hi, toGF_swap hr32 hi hj0hi, submatrix_swap_mul, hrel]
    · show detNZ (swap st.1 i j0)
      unfold detNZ
      rw [toGF_swap hc32 hi hj0hi]
      exact det_submatrix_swap_ne_zero _ hdet
    · intro k hk r hr
      rw [entry_swap (by rw [hc32.1]; exact hi) (by rw [hc32.1]; exact hj0hi)]
      by_cases h1 : r = j0
      · rw [if_pos h1, hcols k hk i hi, if_neg (by omega), if_neg (by omega)]
      · rw [if_neg h1]
        by_cases h2 : r = i
        · rw [if_pos h2, hcols k hk j0 hj0hi, if_neg (by omega), if_neg (by omega)]
        · rw [if_neg h2]
          exact hcols k hk r hr
    · show entry (swap st.1 i j0) i i = 1
      rw [entry_swap (by rw [hc32.1]; exact hi) (by rw [hc32.1]; exact hj0hi),
        if_neg hi0ne, if_pos rfl]
      exact hj0this
  · rw [if_neg hpiv]
    have h1 : entry st.1 i i = 1 := by
      rcases hc01 i i with h | h
      · exact absurd h hpiv
      · exact h
    exact ⟨⟨hc32, hr32, hc01, hr01, hrel, hdet, hcols⟩, h1⟩

theorem elimStep_inv {M : List (List Nat)} {i : Nat} (hi : i < 32)
    {st : List (List Nat) × List (List Nat)} (hinv : GJInv M i st) :
    GJInv M (i + 1) (elimStep i st) := by
  obtain ⟨hinv1, hpiv1⟩ := pivotStep_inv hi hinv
  have hL1 : ∀ j ∈ List.range' (i + 1) (31 - i), j < 32 ∧ j ≠ i := by
    intro j hj
    rw [List.mem_range'] at hj
    obtain ⟨t, ht, rfl⟩ := hj
    exact ⟨by omega, by omega⟩
  obtain ⟨hinv2, hpiv2, hzero2, hpres2⟩ := elimFold hi _ hL1 _ hinv1 hpiv1
  have hL2 : ∀ j ∈ List.range i, j < 32 ∧ j ≠ i := by
    intro j hj
    rw [List.mem_range] at hj
    exact ⟨by omega, by omega⟩
  obtain ⟨hinv3, hpiv3, hzero3, hpres3⟩ := elimFold hi _ hL2 _ hinv2 hpiv2
  unfold elimStep
  obtain ⟨hc32, hr32, hc01, hr01, hrel, hdet, hcols⟩ := hinv3
  refine ⟨hc32, hr32, hc01, hr01, hrel, hdet, ?_⟩
  intro k hk r hr
  by_cases hki : k = i
  · subst hki
    by_cases hri : r = k
    · rw [if_pos hri, hri]
      exact hpiv3
    · rw [if_neg hri]
      by_cases hrlt : r < k
      · exact hzero3 r (List.mem_range.mpr hrlt)
      · have hrmem : r ∈ List.range' (k + 1) (31 - k) := by
          rw [List.mem_range']
          exact ⟨r - (k + 1), by omega, by omega⟩
        have hrnot2 : r ∉ List.range k := by
          rw [List.mem_range]
          omega
        rw [hpres3 r k hrnot2]
        exact hzero2 r hrmem
  · have hklt : k < i := by omega
    exact hcols k hklt r hr

theorem GJInv_init {M : List (List Nat)} (h32 : isMat32 M) (h01 : entries01 M)
    (hdet : detNZ M) : GJInv M 0 (M, identityMatrix) := by
  refine ⟨h32, isMat32_identityMatrix, h01, entries01_identityMatrix, ?_, hdet, ?_⟩
  · show toGF identityMatrix * toGF M = toGF M
    rw [toGF_identityMatrix, one_mul]
  · intro k hk
    exact absurd hk (Nat.not_lt_zero k)

theorem gjLoopAux_res {M : List (List Nat)} :
    ∀ (n k : Nat) (st : List (List Nat) × List (List Nat)), 32 - k = n → k ≤ 32 →
      GJInv M k st →
      toGF (gjLoopAux k st) * toGF M = 1 ∧ entries01 (gjLoopAux k st) ∧
        isMat32 (gjLoopAux k st) := by
  intro n
  induction n with
  | zero =>
    intro k st hk hk32 hinv
    have hk' : k = 32 := by omega
    subst hk'
    rw [gjLoopAux, dif_neg (by omega)]
    obtain ⟨hc32, hr32, hc01, hr01, hrel, hdet32, hcols⟩ := hinv
    have hone : toGF st.1 = 1 := by
      ext r c
      show (entry st.1 r.val c.val : ZMod 2) = _
      rw [hcols c.val c.isLt r.val r.isLt, Matrix.one_apply]
      by_cases h : (r : Nat) = c.val
      · rw [if_pos h, if_pos (Fin.ext_iff.mpr h)]
        rfl
      · rw [if_neg h, if_neg fun hh => h (congrArg Fin.val hh)]
        rfl
    exact ⟨by rw [hrel, hone], hr01, hr32⟩
  | succ n ih =>
    intro k st hk hk32 hinv
    have hklt : k < 32 := by omega
    rw [gjLoopAux, dif_pos hklt]
    exact ih (k + 1) _ (by omega) (by omega) (elimStep_inv hklt hinv)

theorem compute_inverse_mul {M : List (List Nat)} (h32 : isMat32 M)
    (h01 : entries01 M) (hM : IsUnit (toGF M)) :
    toGF (compute_inverse M) * toGF M = 1 ∧ entries01 (compute_inverse M) ∧
      isMat32 (compute_inverse M) := by
  have hdet : detNZ M := by
    unfold detNZ
    rw [← isUnit_iff_ne_zero]
    exact (Matrix.isUnit_iff_isUnit_det _).mp hM
  unfold compute_inverse
  exact gjLoopAux_res 32 0 _ rfl (by omega) (GJInv_init h32 h01 hdet)

/-! ### The diffusion matrix -/

theorem isMat32_compute_matrix (diffusion : Nat → Nat) : isMat32 (compute_matrix diffusion) := by
  constructor
  · simp [compute_matrix]
  · intro r hr
    simp only [compute_matrix, List.mem_map] at hr
    obtain ⟨i, _, rfl⟩ := hr
    simp

theorem entry_compute_matrix (diffusion : Nat → Nat) {i j : Nat} (hi : i < 32) (hj : j < 32) :
    entry (compute_matrix diffusion) i j = (diffusion i >>> j) &&& 1 := by
  unfold compute_matrix entry
  rw [getD_map_range _ _ _ _ hi, getD_map_range _ _ _ _ hj]

theorem entries01_compute_matrix (diffusion : Nat → Nat) :
    entries01 (compute_matrix diffusion) := by
  intro i j
  by_cases h : i < 32 ∧ j < 32
  · rw [entry_compute_matrix diffusion h.1 h.2, Nat.and_one_is_mod]
    omega
  · rw [entry_out_of_range (isMat32_compute_matrix diffusion) h]
    left
    rfl

/-! ### Assembling a possibility vector -/

theorem possibility_vec_foldl_lo :
    ∀ (l : List (Nat × Nat)) (s : Nat) (v : List Nat) (m : Nat), m < 2 * s →
      ((List.enumFrom s l).foldl
        (fun v idxij => (v.set (2 * idxij.1) idxij.2.1).set (2 * idxij.1 + 1) idxij.2.2)
        v).getD m 0 = v.getD m 0 := by
  intro l
  induction l with
  | nil => intro s v m _; rfl
  | cons a l ih =>
    intro s v m hm
    rw [List.enumFrom_cons, List.foldl_cons, ih (s + 1) _ m (by omega)]
    rw [List.getD_eq_getElem?_getD, List.getElem?_set, List.getElem?_set]
    rw [if_neg (by omega), if_neg (by omega), List.getD_eq_getElem?_getD]

theorem possibility_vec_foldl_length :
    ∀ (l : List (Nat × Nat)) (s : Nat) (v : List Nat),
      ((List.enumFrom s l).foldl
        (fun v idxij => (v.set (2 * idxij.1) idxij.2.1).set (2 * idxij.1 + 1) idxij.2.2)
        v).length = v.length := by
  intro l
  induction l with
  | nil => intro s v; rfl
  | cons a l ih =>
    intro s v
    rw [List.enumFrom_cons, List.foldl_cons, ih (s + 1), List.length_set, List.length_set]

theorem possibility_vec_foldl_at :
    ∀ (l : List (Nat × Nat)) (s : Nat) (v : List Nat) (k : Nat), k < l.length →
      2 * (s + k) + 1 < v.length →
      ((List.enumFrom s l).foldl
        (fun v idxij => (v.set (2 * idxij.1) idxij.2.1).set (2 * idxij.1 + 1) idxij.2.2)
        v).getD (2 * (s + k)) 0 = (l.getD k (0, 0)).1 ∧
      ((List.enumFrom s l).foldl
        (fun v idxij => (v.set (2 * idxij.1) idxij.2.1).set (2 * idxij.1 + 1) idxij.2.2)
        v).getD (2 * (s + k) + 1) 0 = (l.getD k (0, 0)).2 := by
  intro l
  induction l with
  | nil =>
    intro s v k hk _
    simp at hk
  | cons a l ih =>
    intro s v k hk hlen
    rw [List.enumFrom_cons, List.foldl_cons]
    cases k with
    | zero =>
      simp only [Nat.add_zero] at hlen ⊢
      constructor
      · rw [possibility_vec_foldl_lo l (s + 1) _ (2 * s) (by omega)]
        rw [List.getD_eq_getElem?_getD, List.getElem?_set, if_neg (by omega),
          List.getElem?_set, if_pos rfl, if_pos (by omega)]
        rfl
      · rw [possibility_vec_foldl_lo l (s + 1) _ (2 * s + 1) (by omega)]
        rw [List.getD_eq_getElem?_getD, List.getElem?_set, if_pos rfl,
          if_pos (by rw [List.length_set]; omega)]
        rfl
    | succ k =>
      have h1 : 2 * (s + (k + 1)) = 2 * ((s + 1) + k) := by omega
      rw [h1, List.getD_cons_succ]
      apply ih (s + 1) _ k (by simpa using hk)
      rw [List.length_set, List.length_set]
      omega

theorem possibility_vec_length (p : List (Nat × Nat)) : (possibility_vec p).length = 32 := by
  unfold possibility_vec
  rw [show p.enum = List.enumFrom 0 p from rfl, possibility_vec_foldl_length,
    List.length_replicate]

theorem possibility_vec_getD {p : List (Nat × Nat)} {k : Nat} (hk : k < p.length)
    (hk16 : k < 16) :
    (possibility_vec p).getD (2 * k) 0 = (p.getD k (0, 0)).1 ∧
      (possibility_vec p).getD (2 * k + 1) 0 = (p.getD k (0, 0)).2 := by
  unfold possibility_vec
  rw [show p.enum = List.enumFrom 0 p from rfl]
  have h := possibility_vec_foldl_at p 0 (List.replicate 32 0) k hk
    (by rw [List.length_replicate]; omega)
  simpa using h

theorem possibility_vec_lt {p : List (Nat × Nat)} (hp : p.length = 16)
    (hq : ∀ q ∈ p, q.1 < 256 ∧ q.2 < 256) :
    ∀ a ∈ possibility_vec p, a < 256 := by
  intro a ha
  rw [List.mem_iff_getElem?] at ha
  obtain ⟨n, hn⟩ := ha
  have hlen : n < 32 := by
    by_contra h
    rw [List.getElem?_eq_none (by rw [possibility_vec_length]; omega)] at hn
    exact Option.noConfusion hn
  have hgetD : (possibility_vec p).getD n 0 = a := by
    rw [List.getD_eq_getElem?_getD, hn]
    rfl
  have hk : n / 2 < 16 := by omega
  have hkp : n / 2 < p.length := by omega
  have hmem := getD_mem_of_lt (0, 0) hkp
  rcases Nat.mod_two_eq_zero_or_one n with he | he
  · have hn2 : n = 2 * (n / 2) := by omega
    rw [hn2, (possibility_vec_getD hkp hk).1] at hgetD
    rw [← hgetD]
    exact (hq _ hmem).1
  · have hn2 : n = 2 * (n / 2) + 1 := by omega
    rw [hn2, (possibility_vec_getD hkp hk).2] at hgetD
    rw [← hgetD]
    exact (hq _ hmem).2

/-! ### Soundness of one round reversal -/

theorem forall₂_getD {α β : Type} {R : α → β → Prop} {l₁ : List α} {l₂ : List β}
    (h : List.Forall₂ R l₁ l₂) (d₁ : α) (d₂ : β) :
    l₁.length = l₂.length ∧ ∀ i, i < l₁.length → R (l₁.getD i d₁) (l₂.getD i d₂) := by
  rw [List.forall₂_iff_get] at h
  refine ⟨h.1, ?_⟩
  intro i hi
  have h2 := h.2 i hi (by rw [← h.1]; exact hi)
  rw [List.getD_eq_getElem?_getD, List.getElem?_eq_getElem hi,
    List.getD_eq_getElem?_getD, List.getElem?_eq_getElem (by rw [← h.1]; exact hi)]
  exact h2

theorem reverse_targets_sound {M : List (List Nat)} {conf : Nat → Nat}
    (h32 : isMat32 M) (h01 : entries01 M) (hM : IsUnit (toGF M)) :
    ∀ (ts : List (List Nat)), (∀ t ∈ ts, t.length = 32 ∧ ∀ a ∈ t, a < 256) →
      ∀ v ∈ reverse_targets (compute_inverse M) (build_lookup_table conf) ts,
        v.length = 32 ∧ (∀ a ∈ v, a < 256) ∧
          ∃ t ∈ ts, matrix_mult M (v.map conf) = t := by
  obtain ⟨hinvM, hinv01, hinv32⟩ := compute_inverse_mul h32 h01 hM
  have hMinv : toGF M * toGF (compute_inverse M) = 1 := Matrix.mul_eq_one_comm.mpr hinvM
  intro ts hts v hv
  simp only [reverse_targets, List.mem_flatMap] at hv
  obtain ⟨t, ht, hv⟩ := hv
  obtain ⟨htlen, htbytes⟩ := hts t ht
  have hprebytes : ∀ a ∈ matrix_mult (compute_inverse M) t, a < 256 :=
    matrix_mult_lt hinv01 htbytes
  have hprelen : (matrix_mult (compute_inverse M) t).length = 32 := by
    rw [length_matrix_mult, htlen]
  cases hany : (matrix_mult (compute_inverse M) t).map (fun n =>
      if ((build_lookup_table conf).getD n []).isEmpty then none
      else some ((build_lookup_table conf).getD n [])) |>.any (fun op => op.isNone) with
  | true =>
    rw [hany] at hv
    simp at hv
  | false =>
    rw [hany] at hv
    rw [if_neg (by decide : ¬false = true)] at hv
    rw [mem_multi_cartesian_product, List.map_map, List.forall₂_map_right_iff] at hv
    have hbuckets : ∀ n ∈ matrix_mult (compute_inverse M) t,
        ((build_lookup_table conf).getD n []).isEmpty = false := by
      intro n hn
      by_contra hne
      have hemp : ((build_lookup_table conf).getD n []).isEmpty = true := by
        cases h : ((build_lookup_table conf).getD n []).isEmpty
        · exact absurd h hne
        · rfl
      have hcontra : ((matrix_mult (compute_inverse M) t).map (fun n =>
          if ((build_lookup_table conf).getD n []).isEmpty = true then none
          else some ((build_lookup_table conf).getD n []))).any (fun op => op.isNone) = true := by
        rw [List.any_eq_true]
        refine ⟨none, ?_, rfl⟩
        rw [List.mem_map]
        exact ⟨n, hn, by rw [if_pos hemp]⟩
      rw [hany] at hcontra
      exact Bool.noConfusion hcontra
    obtain ⟨hlen12, hpoint⟩ := forall₂_getD hv 0 0
    have hvlen : v.length = 32 := by rw [hlen12, hprelen]
    have hpos : ∀ i, i < 32 → v.getD i 0 < 256 ∧
        conf (v.getD i 0) = (matrix_mult (compute_inverse M) t).getD i 0 := by
      intro i hi
      have hp := hpoint i (by rw [hvlen]; exact hi)
      have hpre_i : (matrix_mult (compute_inverse M) t).getD i 0 < 256 :=
        hprebytes _ (getD_mem_of_lt 0 (by rw [hprelen]; exact hi))
      have hbn := hbuckets _ (getD_mem_of_lt 0 (by rw [hprelen]; exact hi))
      simp only [Function.comp_apply] at hp
      rw [hbn, if_neg (by decide : ¬false = true)] at hp
      rw [Option.getD_some] at hp
      rw [mem_build_lookup_table hpre_i] at hp
      exact hp
    have hvbytes : ∀ a ∈ v, a < 256 := by
      intro a ha
      rw [List.mem_iff_getElem?] at ha
      obtain ⟨i, hi⟩ := ha
      have hilt : i < 32 := by
        by_contra h
        rw [List.getElem?_eq_none (by rw [hvlen]; omega)] at hi
        exact Option.noConfusion hi
      have hd : v.getD i 0 = a := by
        rw [List.getD_eq_getElem?_getD, hi]
        rfl
      rw [← hd]
      exact (hpos i hilt).1
    refine ⟨hvlen, hvbytes, t, ht, ?_⟩
    have hmap : v.map conf = matrix_mult (compute_inverse M) t := by
      apply List.ext_getElem?
      intro i
      by_cases hi : i < 32
      · rw [getElem?_eq_some_getD 0 (by rw [List.length_map, hvlen]; exact hi),
          getElem?_eq_some_getD 0 (by rw [hprelen]; exact hi)]
        congr 1
        have hmapD : (v.map conf).getD i 0 = conf (v.getD i 0) := by
          rw [List.getD_eq_getElem?_getD, List.getElem?_map,
            List.getElem?_eq_getElem (by rw [hvlen]; exact hi)]
          rw [List.getD_eq_getElem?_getD, List.getElem?_eq_getElem (by rw [hvlen]; exact hi)]
          rfl
        rw [hmapD, (hpos i hi).2]
      · rw [List.getElem?_eq_none (by rw [List.length_map, hvlen]; omega),
          List.getElem?_eq_none (by rw [hprelen]; omega)]
    rw [hmap]
    exact matrix_mult_cancel h01 hinv01 htlen hMinv

theorem reverse_targets_iter_sound {M : List (List Nat)} {conf : Nat → Nat}
    (h32 : isMat32 M) (h01 : entries01 M) (hM : IsUnit (toGF M)) :
    ∀ (rounds : Nat) (ts : List (List Nat)), (∀ t ∈ ts, t.length = 32 ∧ ∀ a ∈ t, a < 256) →
      ∀ v ∈ (reverse_targets (compute_inverse M) (build_lookup_table conf))^[rounds] ts,
        v.length = 32 ∧ (∀ a ∈ v, a < 256) ∧
          ∃ t ∈ ts, (fun u => matrix_mult M (u.map conf))^[rounds] v = t := by
  intro rounds
  induction rounds with
  | zero =>
    intro ts hts v hv
    obtain ⟨h1, h2⟩ := hts v hv
    exact ⟨h1, h2, v, hv, rfl⟩
  | succ n ih =>
    intro ts hts v hv
    rw [Function.iterate_succ_apply] at hv
    have hts' : ∀ t ∈ reverse_targets (compute_inverse M) (build_lookup_table conf) ts,
        t.length = 32 ∧ ∀ a ∈ t, a < 256 := by
      intro t ht
      obtain ⟨h1, h2, _⟩ := reverse_targets_sound h32 h01 hM ts hts t ht
      exact ⟨h1, h2⟩
    obtain ⟨hvlen, hvbytes, u, hu, hiter⟩ := ih _ hts' v hv
    obtain ⟨_, _, t, ht, hstep⟩ := reverse_targets_sound h32 h01 hM ts hts u hu
    refine ⟨hvlen, hvbytes, t, ht, ?_⟩
    rw [Function.iterate_succ_apply', hiter, hstep]

/-! ### The first-success enumeration loop -/

theorem crack_loop_mem {inv lookup : List (List Nat)} {rounds : Nat} :
    ∀ (ps : List (List (Nat × Nat))) (v : List Nat), v ∈ crack_loop inv lookup rounds ps →
      ∃ p ∈ ps, v ∈ (reverse_targets inv lookup)^[rounds] [possibility_vec p] := by
  intro ps
  induction ps with
  | nil =>
    intro v hv
    simp [crack_loop] at hv
  | cons p rest ih =>
    intro v hv
    simp only [crack_loop] at hv
    split at hv
    · obtain ⟨q, hq, hmem⟩ := ih v hv
      exact ⟨q, List.mem_cons_of_mem _ hq, hmem⟩
    · exact ⟨p, List.mem_cons_self p rest, hv⟩

theorem crack_loop_first {inv lookup : List (List Nat)} {rounds : Nat} :
    ∀ (ps : List (List (Nat × Nat))) (n : Nat) (p : List (Nat × Nat)),
      ps[n]? = some p →
      (∀ m, m < n → ∀ q, ps[m]? = some q →
        (reverse_targets inv lookup)^[rounds] [possibility_vec q] = []) →
      (reverse_targets inv lookup)^[rounds] [possibility_vec p] ≠ [] →
      crack_loop inv lookup rounds ps =
        (reverse_targets inv lookup)^[rounds] [possibility_vec p] := by
  intro ps
  induction ps with
  | nil =>
    intro n p hp _ _
    simp at hp
  | cons a rest ih =>
    intro n p hp hbefore hne
    cases n with
    | zero =>
      rw [List.getElem?_cons_zero] at hp
      injection hp with hp
      subst hp
      simp only [crack_loop]
      rw [if_neg fun h => hne (List.isEmpty_iff.mp h)]
    | succ n =>
      rw [List.getElem?_cons_succ] at hp
      have ha : (reverse_targets inv lookup)^[rounds] [possibility_vec a] = [] :=
        hbefore 0 (by omega) a List.getElem?_cons_zero
      simp only [crack_loop, ha, List.isEmpty_nil, if_true]
      exact ih n p hp
        (fun m hm q hq => hbefore (m + 1) (by omega) q
          (by rw [List.getElem?_cons_succ]; exact hq)) hne

/-! ### Soundness of `crack` against the forward relation -/

theorem getD_range {n k : Nat} (hk : k < n) : (List.range n).getD k 0 = k := by
  rw [List.getD_eq_getElem?_getD, List.getElem?_range hk]
  rfl

theorem crack_sound {target diffusion conf : Nat → Nat} {rounds : Nat}
    (hM : IsUnit (toGF (compute_matrix diffusion))) :
    ∀ v ∈ crack target diffusion conf rounds,
      v.length = 32 ∧ (∀ a ∈ v, a < 256) ∧
        ∀ k, k < 16 →
          conf (((forward_round conf (compute_matrix diffusion))^[rounds] v).getD (2 * k) 0) ^^^
            conf (((forward_round conf (compute_matrix diffusion))^[rounds] v).getD
              (2 * k + 1) 0 + 256) = target k := by
  intro v hv
  unfold crack at hv
  obtain ⟨p, hp, hmem⟩ := crack_loop_mem _ v hv
  rw [mem_multi_cartesian_product, List.forall₂_map_right_iff] at hp
  obtain ⟨hplen, hpk⟩ := forall₂_getD hp (0, 0) 0
  rw [List.length_range] at hplen
  have hpmatch : ∀ k, k < 16 → p.getD k (0, 0) ∈ xor_match conf (target k) := by
    intro k hk
    have h := hpk k (by rw [hplen]; exact hk)
    rw [getD_range hk] at h
    exact h
  have hpbounds : ∀ q ∈ p, q.1 < 256 ∧ q.2 < 256 := by
    intro q hq
    rw [List.mem_iff_getElem?] at hq
    obtain ⟨k, hk⟩ := hq
    have hklt : k < 16 := by
      by_contra h
      rw [List.getElem?_eq_none (by rw [hplen]; omega)] at hk
      exact Option.noConfusion hk
    have hd : p.getD k (0, 0) = q := by
      rw [List.getD_eq_getElem?_getD, hk]
      rfl
    have hm := hpmatch k hklt
    rw [hd] at hm
    obtain ⟨h1, h2, _⟩ := (@mem_xor_match conf (target k) q.1 q.2).mp (by
      rw [show (q.1, q.2) = q from rfl]
      exact hm)
    exact ⟨h1, h2⟩
  have hts : ∀ t ∈ [possibility_vec p], t.length = 32 ∧ ∀ a ∈ t, a < 256 := by
    intro t ht
    rw [List.mem_singleton] at ht
    subst ht
    exact ⟨possibility_vec_length p, possibility_vec_lt hplen hpbounds⟩
  obtain ⟨hvlen, hvbytes, t, ht, hiter⟩ :=
    reverse_targets_iter_sound (isMat32_compute_matrix diffusion)
      (entries01_compute_matrix diffusion) hM rounds [possibility_vec p] hts v hmem
  rw [List.mem_singleton] at ht
  subst ht
  refine ⟨hvlen, hvbytes, ?_⟩
  intro k hk
  have hw : (forward_round conf (compute_matrix diffusion))^[rounds] v = possibility_vec p :=
    hiter
  rw [hw]
  have hgetD := @possibility_vec_getD p k (by rw [hplen]; exact hk) hk
  rw [hgetD.1, hgetD.2]
  have hm := hpmatch k hk
  obtain ⟨_, _, h3⟩ := (@mem_xor_match conf (target k) (p.getD k (0, 0)).1
    (p.getD k (0, 0)).2).mp (by
      rw [show ((p.getD k (0, 0)).1, (p.getD k (0, 0)).2) = p.getD k (0, 0) from rfl]
      exact hm)
  exact h3

/-! ### The identity scenario (spec §8) -/

theorem flatMap_congr {α β : Type} {l : List α} {f g : α → List β}
    (h : ∀ x ∈ l, f x = g x) : l.flatMap f = l.flatMap g := by
  induction l with
  | nil => rfl
  | cons a l ih =>
    rw [List.flatMap_cons, List.flatMap_cons, h a (by simp),
      ih (fun x hx => h x (List.mem_cons_of_mem _ hx))]

theorem flatMap_single {α β : Type} (l : List α) (f : α → β) :
    l.flatMap (fun x => [f x]) = l.map f := by
  induction l with
  | nil => rfl
  | cons a l ih => rw [List.flatMap_cons, List.map_cons, ih]; rfl

theorem identConf_hi (c : Nat) : identConf (c + 256) = 0 := by
  simp [identConf]

theorem identConf_lo {c : Nat} (h : c < 256) : identConf c = c := by
  simp [identConf, h]

theorem range_flatMap_ite_zero {β : Type} (h : Nat → List β) :
    ∀ n, (List.range n).flatMap (fun i => if i = 0 then h i else []) =
      if 0 < n then h 0 else [] := by
  intro n
  induction n with
  | zero => simp
  | succ n ih =>
    rw [List.range_succ, List.flatMap_append, ih]
    cases n with
    | zero => simp
    | succ m =>
      rw [if_pos (by omega), if_pos (by omega)]
      have hlast : List.flatMap [m + 1] (fun i => if i = 0 then h i else []) = [] := by
        simp
      rw [hlast, List.append_nil]

theorem xor_match_identConf :
    xor_match identConf 0 = (List.range 256).map (fun j => (0, j)) := by
  unfold xor_match
  have hcond : ∀ i j : Nat, (identConf i ^^^ identConf (j + 256) = 0) ↔ identConf i = 0 := by
    intro i j
    rw [identConf_hi j, Nat.xor_zero]
  have hinner : ∀ i : Nat,
      ((List.range 256).flatMap fun j =>
        if identConf i ^^^ identConf (j + 256) = 0 then [(i, j)] else []) =
      (if identConf i = 0 then (List.range 256).map (fun j => (i, j)) else []) := by
    intro i
    by_cases h : identConf i = 0
    · rw [if_pos h, ← flatMap_single (List.range 256) (fun j => (i, j))]
      exact flatMap_congr (fun j _ => by rw [if_pos ((hcond i j).mpr h)])
    · rw [if_neg h]
      apply List.flatMap_eq_nil_iff.mpr
      intro j _
      rw [if_neg (fun hc => h ((hcond i j).mp hc))]
  rw [flatMap_congr (fun i _ => hinner i)]
  have hlo : (List.range 256).flatMap
      (fun i => if identConf i = 0 then (List.range 256).map (fun j => (i, j)) else []) =
      (List.range 256).flatMap
      (fun i => if i = 0 then (List.range 256).map (fun j => (i, j)) else []) :=
    flatMap_congr (fun i hi => by rw [identConf_lo (List.mem_range.mp hi)])
  rw [hlo]
  rw [range_flatMap_ite_zero (fun i => (List.range 256).map (fun j => (i, j))) 256,
    if_pos (by omega)]

theorem range_filter_beq (b : Nat) :
    ∀ n, (List.range n).filter (fun c => c == b) = if b < n then [b] else [] := by
  intro n
  induction n with
  | zero => simp
  | succ n ih =>
    rw [List.range_succ, List.filter_append, ih]
    by_cases h2 : b = n
    · subst h2
      rw [if_neg (by omega), if_pos (by omega)]
      simp
    · have hne : (n == b) = false := beq_eq_false_iff_ne.mpr (fun hh => h2 hh.symm)
      have hfil : List.filter (fun c => c == b) [n] = [] := by
        simp [List.filter_cons, hne]
      rw [hfil, List.append_nil]
      by_cases h : b < n
      · rw [if_pos h, if_pos (by omega)]
      · rw [if_neg h, if_neg (by omega)]

theorem build_lookup_identConf (b : Nat) (hb : b < 256) :
    (build_lookup_table identConf).getD b [] = [b] := by
  rw [build_lookup_table_getD identConf b hb]
  rw [List.filter_congr (fun c hc => by
    rw [identConf_lo (List.mem_range.mp hc)])]
  rw [range_filter_beq b 256, if_pos hb]

theorem mcp_replicate_singleton {α : Type} (a : α) :
    ∀ n, multi_cartesian_product (List.replicate n [a]) = [List.replicate n a] := by
  intro n
  induction n with
  | zero => rfl
  | succ n ih =>
    rw [List.replicate_succ, show multi_cartesian_product ([a] :: List.replicate n [a]) =
      [a].flatMap (fun x => (multi_cartesian_product (List.replicate n [a])).map (x :: ·))
      from rfl, ih]
    rfl

theorem reverse_targets_identConf_zeroVec (inv : List (List Nat)) :
    reverse_targets inv (build_lookup_table identConf) [zeroVec] = [zeroVec] := by
  simp only [reverse_targets, List.flatMap_cons, List.flatMap_nil, List.append_nil]
  rw [show matrix_mult inv zeroVec = List.replicate 32 0 from matrix_mult_replicate_zero inv 32]
  rw [List.map_replicate]
  rw [build_lookup_identConf 0 (by omega),
    if_neg (by decide : ¬(List.isEmpty [0]) = true)]
  have hany : ((List.replicate 32 (some [0])).any fun op => op.isNone) = false := by
    rw [List.any_eq_false]
    intro op hop
    rw [List.mem_replicate] at hop
    rw [hop.2]
    simp
  rw [hany, if_neg (by decide : ¬false = true), List.map_replicate]
  rw [show (some [0] : Option (List Nat)).getD [] = [0] from rfl]
  rw [mcp_replicate_singleton]
  rfl

theorem crack_congr_target {t1 t2 diffusion conf : Nat → Nat} {rounds : Nat}
    (h : ∀ k, k < 16 → t1 k = t2 k) :
    crack t1 diffusion conf rounds = crack t2 diffusion conf rounds := by
  unfold crack
  have hmaps : (List.range 16).map (fun k => xor_match conf (t1 k)) =
      (List.range 16).map (fun k => xor_match conf (t2 k)) := by
    apply List.map_congr_left
    intro k hk
    rw [h k (List.mem_range.mp hk)]
  rw [hmaps]

theorem crack_identity_zero : crack zeroTarget identDiffusion identConf 1 = [zeroVec] := by
  unfold crack
  have hmaps : (List.range 16).map (fun k => xor_match identConf (zeroTarget k)) =
      List.replicate 16 ((List.range 256).map (fun j => (0, j))) := by
    have h1 : (List.range 16).map (fun k => xor_match identConf (zeroTarget k)) =
        (List.range 16).map (fun _ => (List.range 256).map (fun j => (0, j))) :=
      List.map_congr_left
        (fun k _ => by rw [show zeroTarget k = 0 from rfl, xor_match_identConf])
    rw [h1, List.map_const', List.length_range]
  rw [hmaps]
  obtain ⟨rest, hrest⟩ := @multi_cartesian_product_head (Nat × Nat) (0, 0)
    (List.replicate 16 ((List.range 256).map (fun j => (0, j))))
    (by
      intro l hl
      rw [List.mem_replicate] at hl
      rw [hl.2]
      decide)
  rw [hrest]
  have hheads : (List.replicate 16 ((List.range 256).map fun j => (0, j))).map
      (fun l => l.headD (0, 0)) = List.replicate 16 ((0 : Nat), (0 : Nat)) := by
    rw [List.map_replicate]
    decide
  rw [hheads]
  simp only [crack_loop]
  have hpv : possibility_vec (List.replicate 16 ((0 : Nat), (0 : Nat))) = zeroVec := by decide
  rw [Function.iterate_one, hpv,
    reverse_targets_identConf_zeroVec (compute_inverse (compute_matrix identDiffusion))]
  rw [if_neg (by decide : ¬(List.isEmpty [zeroVec]) = true)]

theorem crack_identity_tail : crack tailTarget identDiffusion identConf 1 = [zeroVec] := by
  rw [@crack_congr_target tailTarget zeroTarget identDiffusion identConf 1 (fun k hk => by
    simp [tailTarget, zeroTarget]
    omega)]
  exact crack_identity_zero

theorem compute_matrix_identDiffusion : compute_matrix identDiffusion = identityMatrix := by
  decide

theorem isUnit_toGF_identDiffusion : IsUnit (toGF (compute_matrix identDiffusion)) := by
  rw [compute_matrix_identDiffusion, toGF_identityMatrix]
  exact isUnit_one

/-! ### Per-candidate behaviour of `reverse_targets` -/

theorem getD_eq_get {α : Type} (l : List α) (d : α) {i : Nat} (hi : i < l.length) :
    l.getD i d = l.get ⟨i, hi⟩ := by
  rw [List.getD_eq_getElem?_getD, List.getElem?_eq_getElem hi]
  rfl

theorem bucket_option_getD {lookup : List (List Nat)} {n : Nat} (h : lookup.getD n [] ≠ []) :
    (if (lookup.getD n []).isEmpty = true then none
      else some (lookup.getD n [])).getD [] = lookup.getD n [] := by
  rw [if_neg (fun hemp => h (List.isEmpty_iff.mp hemp))]
  rfl

theorem reverse_targets_empty_bucket {inv lookup : List (List Nat)} {t : List Nat}
    (h : ∃ p, p < t.length ∧ lookup.getD ((matrix_mult inv t).getD p 0) [] = []) :
    reverse_targets inv lookup [t] = [] := by
  simp only [reverse_targets, List.flatMap_cons, List.flatMap_nil, List.append_nil]
  obtain ⟨p, hp, hb⟩ := h
  have hany : ((matrix_mult inv t).map fun n =>
      if (lookup.getD n []).isEmpty = true then none
      else some (lookup.getD n [])).any (fun op => op.isNone) = true := by
    rw [List.any_eq_true]
    refine ⟨none, ?_, rfl⟩
    rw [List.mem_map]
    refine ⟨(matrix_mult inv t).getD p 0,
      getD_mem_of_lt 0 (by rw [length_matrix_mult]; exact hp), ?_⟩
    rw [hb]
    rfl
  rw [hany]
  rfl

theorem reverse_targets_full {inv lookup : List (List Nat)} {t : List Nat}
    (h : ∀ p, p < t.length → lookup.getD ((matrix_mult inv t).getD p 0) [] ≠ []) :
    (∀ v, v ∈ reverse_targets inv lookup [t] ↔
      (v.length = t.length ∧
        ∀ p, p < t.length → v.getD p 0 ∈ lookup.getD ((matrix_mult inv t).getD p 0) [])) ∧
    (reverse_targets inv lookup [t]).length =
      ((List.range t.length).map
        (fun p => (lookup.getD ((matrix_mult inv t).getD p 0) []).length)).prod := by
  have hprelen : (matrix_mult inv t).length = t.length := length_matrix_mult inv t
  have hmemidx : ∀ n ∈ matrix_mult inv t, ∃ p, p < t.length ∧
      (matrix_mult inv t).getD p 0 = n := by
    intro n hn
    rw [List.mem_iff_getElem?] at hn
    obtain ⟨p, hp⟩ := hn
    have hplt : p < t.length := by
      by_contra h'
      rw [List.getElem?_eq_none (by rw [hprelen]; omega)] at hp
      exact Option.noConfusion hp
    refine ⟨p, hplt, ?_⟩
    rw [List.getD_eq_getElem?_getD, hp]
    rfl
  have hany : ((matrix_mult inv t).map fun n =>
      if (lookup.getD n []).isEmpty = true then none
      else some (lookup.getD n [])).any (fun op => op.isNone) = false := by
    rw [List.any_eq_false]
    intro op hop
    rw [List.mem_map] at hop
    obtain ⟨n, hn, rfl⟩ := hop
    obtain ⟨p, hplt, hgd⟩ := hmemidx n hn
    rw [if_neg (fun hemp => h p hplt (by rw [hgd]; exact List.isEmpty_iff.mp hemp))]
    simp
  simp only [reverse_targets, List.flatMap_cons, List.flatMap_nil, List.append_nil]
  rw [hany, if_neg (by decide : ¬false = true)]
  constructor
  · intro v
    rw [mem_multi_cartesian_product, List.map_map, List.forall₂_map_right_iff,
      List.forall₂_iff_get]
    constructor
    · rintro ⟨hlen, hget⟩
      refine ⟨by rw [hlen, hprelen], ?_⟩
      intro p hp
      have h2 := hget p (by rw [hlen, hprelen]; exact hp) (by rw [hprelen]; exact hp)
      rw [← getD_eq_get v 0, ← getD_eq_get (matrix_mult inv t) 0] at h2
      simp only [Function.comp_apply] at h2
      rw [bucket_option_getD (h p hp)] at h2
      exact h2
    · rintro ⟨hlen, hmem⟩
      refine ⟨by rw [hlen, hprelen], ?_⟩
      intro i h1 h2
      have hilt : i < t.length := by rw [← hlen]; exact h1
      have h3 := hmem i hilt
      simp only [Function.comp_apply]
      rw [← getD_eq_get v 0 h1, ← getD_eq_get (matrix_mult inv t) 0 h2]
      rw [bucket_option_getD (h i hilt)]
      exact h3
  · rw [length_multi_cartesian_product, List.map_map, List.map_map]
    apply congrArg List.prod
    apply List.ext_getElem?
    intro i
    by_cases hi : i < t.length
    · rw [getElem?_eq_some_getD 0 (by rw [List.length_map, hprelen]; exact hi),
        getElem?_eq_some_getD 0 (by rw [List.length_map, List.length_range]; exact hi)]
      congr 1
      rw [getD_map_range _ _ _ _ hi]
      have hpi : i < (matrix_mult inv t).length := by rw [hprelen]; exact hi
      rw [List.getD_eq_getElem?_getD, List.getElem?_map, List.getElem?_eq_getElem hpi]
      simp only [Option.map_some', Option.getD_some, Function.comp_apply]
      rw [show (matrix_mult inv t)[i] = (matrix_mult inv t).getD i 0 from by
        rw [List.getD_eq_getElem?_getD, List.getElem?_eq_getElem hpi]
        rfl]
      rw [bucket_option_getD (h i hi)]
    · rw [List.getElem?_eq_none (by rw [List.length_map, hprelen]; omega),
        List.getElem?_eq_none (by rw [List.length_map, List.length_range]; omega)]

theorem matrix_mult_identityMatrix_target4 : matrix_mult identityMatrix target4 = target4 := by
  decide

theorem bucket_conf4_zero : (build_lookup_table conf4).getD 0 [] = [0, 1] := by
  rw [build_lookup_table_getD conf4 0 (by omega)]
  decide

theorem bucket_conf4_two : (build_lookup_table conf4).getD 2 [] = [2, 3] := by
  rw [build_lookup_table_getD conf4 2 (by omega)]
  decide

theorem bucket_conf4_four : (build_lookup_table conf4).getD 4 [] = [4] := by
  rw [build_lookup_table_getD conf4 4 (by omega)]
  decide

theorem reverse_targets_conf4 :
    reverse_targets identityMatrix (build_lookup_table conf4) [target4] = fourOutputs := by
  simp only [reverse_targets, List.flatMap_cons, List.flatMap_nil, List.append_nil]
  rw [matrix_mult_identityMatrix_target4]
  rw [show target4 = 0 :: 2 :: List.replicate 30 4 from rfl]
  simp only [List.map_cons, List.map_replicate]
  rw [bucket_conf4_zero, bucket_conf4_two, bucket_conf4_four]
  rw [if_neg (by decide : ¬(List.isEmpty [0, 1]) = true),
    if_neg (by decide : ¬(List.isEmpty [2, 3]) = true),
    if_neg (by decide : ¬(List.isEmpty [4]) = true)]
  have hany : ((some [0, 1] :: some [2, 3] :: List.replicate 30 (some ([4] : List Nat))).any
      fun op => op.isNone) = false := by
    rw [List.any_eq_false]
    intro op hop
    rcases List.mem_cons.mp hop with rfl | hop
    · simp
    · rcases List.mem_cons.mp hop with rfl | hop
      · simp
      · rw [List.mem_replicate] at hop
        rw [hop.2]
        simp
  rw [hany, if_neg (by decide : ¬false = true)]
  rw [show (some ([0, 1] : List Nat)).getD [] = [0, 1] from rfl,
    show (some ([2, 3] : List Nat)).getD [] = [2, 3] from rfl,
    show (some ([4] : List Nat)).getD [] = [4] from rfl]
  show multi_cartesian_product ([0, 1] :: [2, 3] :: List.replicate 30 [4]) = fourOutputs
  rw [show multi_cartesian_product ([0, 1] :: [2, 3] :: List.replicate 30 [4]) =
    ([0, 1] : List Nat).flatMap (fun x =>
      (([2, 3] : List Nat).flatMap (fun y =>
        (multi_cartesian_product (List.replicate 30 [4])).map (y :: ·))).map (x :: ·))
    from rfl]
  rw [mcp_replicate_singleton]
  decide

theorem fourOutputs_len_nodup : fourOutputs.length = 4 ∧ fourOutputs.Nodup := by
  constructor
  · rfl
  · decide

/-! ### Empty stage-3 match sets -/

theorem crack_of_empty_match {target diffusion conf : Nat → Nat} {rounds : Nat}
    (h : ∃ k, k < 16 ∧ xor_match conf (target k) = []) :
    crack target diffusion conf rounds = [] := by
  obtain ⟨k, hk, hempty⟩ := h
  unfold crack
  have hmem : ([] : List (Nat × Nat)) ∈
      (List.range 16).map (fun k => xor_match conf (target k)) := by
    rw [List.mem_map]
    exact ⟨k, List.mem_range.mpr hk, hempty⟩
  rw [multi_cartesian_product_eq_nil hmem]
  rfl

/-! ### Further helpers for the claim theorems -/

theorem identity_factors :
    (List.range 16).map (fun k => xor_match identConf (zeroTarget k)) =
      List.replicate 16 ((List.range 256).map (fun j => (0, j))) := by
  have h1 : (List.range 16).map (fun k => xor_match identConf (zeroTarget k)) =
      (List.range 16).map (fun _ => (List.range 256).map (fun j => (0, j))) :=
    List.map_congr_left
      (fun k _ => by rw [show zeroTarget k = 0 from rfl, xor_match_identConf])
  rw [h1, List.map_const', List.length_range]

theorem identity_mcp_head :
    ∃ rest, multi_cartesian_product ((List.range 16).map
      (fun k => xor_match identConf (zeroTarget k))) = firstPossibility :: rest := by
  rw [identity_factors]
  obtain ⟨rest, hrest⟩ := @multi_cartesian_product_head (Nat × Nat) (0, 0)
    (List.replicate 16 ((List.range 256).map (fun j => (0, j))))
    (by
      intro l hl
      rw [List.mem_replicate] at hl
      rw [hl.2]
      decide)
  refine ⟨rest, ?_⟩
  rw [hrest]
  have hheads : (List.replicate 16 ((List.range 256).map fun j => (0, j))).map
      (fun l => l.headD (0, 0)) = firstPossibility := by
    rw [List.map_replicate]
    decide
  rw [hheads]

theorem forall₂_replicate {α β : Type} {R : α → β → Prop} {a : α} {b : β} (h : R a b) :
    ∀ n, List.Forall₂ R (List.replicate n a) (List.replicate n b) := by
  intro n
  induction n with
  | zero => exact List.Forall₂.nil
  | succ n ih => exact List.Forall₂.cons h ih

/-! ### The claims -/

/-- C1 (amended): a candidate returned by `crack` reproduces the FIRST 16
bytes of the target under the forward pipeline — the combination stage halves
the width, so the pipeline emits 16 bytes and only `target[0..16]` is
constrained. -/
theorem C1_round_trip_first16 {target diffusion conf : Nat → Nat} {rounds : Nat}
    (hM : IsUnit (toGF (compute_matrix diffusion))) :
    ∀ v ∈ crack target diffusion conf rounds,
      forward_pipeline conf (compute_matrix diffusion) rounds v =
        (List.range 16).map target := by
  intro v hv
  unfold forward_pipeline
  apply List.map_congr_left
  intro k hk
  exact (crack_sound hM v hv).2.2 k (List.mem_range.mp hk)

/-- Witness for C1: in the identity scenario the returned vector `zeroVec`
does reproduce the first 16 target bytes. -/
theorem C1_round_trip_first16_witness :
    forward_pipeline identConf (compute_matrix identDiffusion) 1 zeroVec =
      (List.range 16).map zeroTarget :=
  C1_round_trip_first16 isUnit_toGF_identDiffusion zeroVec
    (by rw [crack_identity_zero]; exact List.mem_singleton.mpr rfl)

/-- Counterexample to C1 as stated: `zeroVec` is returned by `crack` for
`tailTarget` (whose byte 16 is 1), yet the forward pipeline emits 16 bytes,
never the 32-byte target; indeed `crack` cannot distinguish `tailTarget`
from `zeroTarget` at all. -/
theorem C1_full_target_counterexample :
    zeroVec ∈ crack tailTarget identDiffusion identConf 1 ∧
      forward_pipeline identConf (compute_matrix identDiffusion) 1 zeroVec ≠
        (List.range 32).map tailTarget ∧
      crack tailTarget identDiffusion identConf 1 =
        crack zeroTarget identDiffusion identConf 1 := by
  refine ⟨?_, ?_, ?_⟩
  · rw [crack_identity_tail]
    exact List.mem_singleton.mpr rfl
  · intro h
    have hlen := congrArg List.length h
    simp only [forward_pipeline, List.length_map, List.length_range] at hlen
    omega
  · rw [crack_identity_tail, crack_identity_zero]

/-- C2: with an invertible diffusion matrix, every vector `v` returned by
`crack` satisfies the relation the code inverts: after `rounds` rounds of
substitution-then-diffusion, the combination of bytes `2k` and `2k+1`
equals `target[k]` for every `k < 16`. -/
theorem C2_forward_relation {target diffusion conf : Nat → Nat} {rounds : Nat}
    (hM : IsUnit (toGF (compute_matrix diffusion))) :
    ∀ v ∈ crack target diffusion conf rounds, ∀ k, k < 16 →
      conf (((forward_round conf (compute_matrix diffusion))^[rounds] v).getD (2 * k) 0) ^^^
        conf (((forward_round conf (compute_matrix diffusion))^[rounds] v).getD
          (2 * k + 1) 0 + 256) = target k :=
  fun v hv k hk => (crack_sound hM v hv).2.2 k hk

/-- Witness for C2 at the identity scenario, `v = zeroVec`, `k = 0`. -/
theorem C2_forward_relation_witness :
    identConf (((forward_round identConf (compute_matrix identDiffusion))^[1] zeroVec).getD
        (2 * 0) 0) ^^^
      identConf (((forward_round identConf (compute_matrix identDiffusion))^[1] zeroVec).getD
        (2 * 0 + 1) 0 + 256) = zeroTarget 0 :=
  C2_forward_relation isUnit_toGF_identDiffusion zeroVec
    (by rw [crack_identity_zero]; exact List.mem_singleton.mpr rfl) 0 (by omega)

/-- C3: for every invertible 32×32 GF(2) matrix `M` (a 0/1 `Vec<Vec<u8>>`)
and every 32-entry vector `x`, the Gauss–Jordan inverse cancels the forward
multiply: `matrix_mult (compute_inverse M) (matrix_mult M x) = x`. -/
theorem C3_inverse_roundtrip {M : List (List Nat)} {x : List Nat}
    (h32 : isMat32 M) (h01 : entries01 M) (hM : IsUnit (toGF M)) (hx : x.length = 32) :
    matrix_mult (compute_inverse M) (matrix_mult M x) = x := by
  obtain ⟨hmul, hinv01, _⟩ := compute_inverse_mul h32 h01 hM
  exact matrix_mult_cancel hinv01 h01 hx hmul

/-- Witness for C3 at `M = identityMatrix`, `x = List.range 32`. -/
theorem C3_inverse_roundtrip_witness :
    matrix_mult (compute_inverse identityMatrix)
      (matrix_mult identityMatrix (List.range 32)) = List.range 32 :=
  C3_inverse_roundtrip isMat32_identityMatrix entries01_identityMatrix
    (by rw [toGF_identityMatrix]; exact isUnit_one) (by simp)

/-- C4: per-candidate behaviour of `reverse_targets`: an empty bucket at any
preimage position drops the candidate entirely (no partial result);
otherwise the output is exactly the full Cartesian product across all
positions' buckets; and in the concrete two-double-buckets scenario
(`conf4`, `target4`) one candidate yields exactly 4 distinct outputs. -/
theorem C4_reverse_targets_branching :
    (∀ inv lookup : List (List Nat), ∀ t : List Nat,
      (∃ p, p < t.length ∧ lookup.getD ((matrix_mult inv t).getD p 0) [] = []) →
      reverse_targets inv lookup [t] = []) ∧
    (∀ inv lookup : List (List Nat), ∀ t : List Nat,
      (∀ p, p < t.length → lookup.getD ((matrix_mult inv t).getD p 0) [] ≠ []) →
      (∀ v, v ∈ reverse_targets inv lookup [t] ↔
        v.length = t.length ∧
          ∀ p, p < t.length → v.getD p 0 ∈ lookup.getD ((matrix_mult inv t).getD p 0) []) ∧
      (reverse_targets inv lookup [t]).length =
        ((List.range t.length).map
          (fun p => (lookup.getD ((matrix_mult inv t).getD p 0) []).length)).prod) ∧
    reverse_targets identityMatrix (build_lookup_table conf4) [target4] = fourOutputs ∧
    (reverse_targets identityMatrix (build_lookup_table conf4) [target4]).length = 4 ∧
    (reverse_targets identityMatrix (build_lookup_table conf4) [target4]).Nodup := by
  refine ⟨fun inv lookup t h => reverse_targets_empty_bucket h,
    fun inv lookup t h => reverse_targets_full h, reverse_targets_conf4, ?_, ?_⟩
  · rw [reverse_targets_conf4]
    exact fourOutputs_len_nodup.1
  · rw [reverse_targets_conf4]
    exact fourOutputs_len_nodup.2

/-- C5: `crack` returns the `rounds`-fold reversal of the FIRST assembled
stage-3 possibility (in Cartesian-product enumeration order) whose reversal
is non-empty; later branches are never reached, so the result is one
branch's set, not a union. -/
theorem C5_first_success {target diffusion conf : Nat → Nat} {rounds n : Nat}
    {p : List (Nat × Nat)}
    (hp : (multi_cartesian_product ((List.range 16).map
      (fun k => xor_match conf (target k))))[n]? = some p)
    (hbefore : ∀ m, m < n → ∀ q,
      (multi_cartesian_product ((List.range 16).map
        (fun k => xor_match conf (target k))))[m]? = some q →
      (reverse_targets (compute_inverse (compute_matrix diffusion))
        (build_lookup_table conf))^[rounds] [possibility_vec q] = [])
    (hne : (reverse_targets (compute_inverse (compute_matrix diffusion))
      (build_lookup_table conf))^[rounds] [possibility_vec p] ≠ []) :
    crack target diffusion conf rounds =
      (reverse_targets (compute_inverse (compute_matrix diffusion))
        (build_lookup_table conf))^[rounds] [possibility_vec p] := by
  unfold crack
  exact crack_loop_first _ n p hp hbefore hne

/-- Witness for C5: in the identity scenario the first possibility already
succeeds, and `crack` returns exactly its reversal. -/
theorem C5_first_success_witness :
    crack zeroTarget identDiffusion identConf 1 =
      (reverse_targets (compute_inverse (compute_matrix identDiffusion))
        (build_lookup_table identConf))^[1] [possibility_vec firstPossibility] := by
  obtain ⟨rest, hrest⟩ := identity_mcp_head
  exact C5_first_success (by rw [hrest]; exact List.getElem?_cons_zero)
    (fun m hm q hq => absurd hm (Nat.not_lt_zero m))
    (by
      rw [Function.iterate_one,
        show possibility_vec firstPossibility = zeroVec from by decide,
        reverse_targets_identConf_zeroVec]
      simp)

/-- C6: `xor_match conf c` holds exactly the pairs `(i, j)` with
`i, j < 256` and `conf i ^^^ conf (j + 256) = c` — no pair missing, none
extraneous. -/
theorem C6_xor_match_exact (conf : Nat → Nat) (c i j : Nat) :
    (i, j) ∈ xor_match conf c ↔ i < 256 ∧ j < 256 ∧ conf i ^^^ conf (j + 256) = c :=
  mem_xor_match

/-- C7 (amended): in the identity scenario the stage-3 match set for a zero
byte is all pairs `(0, j)`, the reversal step maps `[zeroVec]` to itself for
ANY inverse matrix, and `crack` returns exactly `[zeroVec]` — the reversal
of the first assembled vector, not the whole assembled family. -/
theorem C7_identity_scenario :
    xor_match identConf 0 = (List.range 256).map (fun j => (0, j)) ∧
      (∀ inv : List (List Nat),
        reverse_targets inv (build_lookup_table identConf) [zeroVec] = [zeroVec]) ∧
      crack zeroTarget identDiffusion identConf 1 = [zeroVec] :=
  ⟨xor_match_identConf, reverse_targets_identConf_zeroVec, crack_identity_zero⟩

/-- Counterexample to C7 as stated: `crack` returns only `[zeroVec]`, while
the assembled stage-3 family contains (among its 256^16 members) the vector
laid out from the possibility `replicate 16 (0, 1)`, which is NOT in the
result — the result does not equal the assembled vectors. -/
theorem C7_all_products_counterexample :
    crack zeroTarget identDiffusion identConf 1 = [zeroVec] ∧
      List.replicate 16 ((0 : Nat), (1 : Nat)) ∈ multi_cartesian_product
        ((List.range 16).map (fun k => xor_match identConf (zeroTarget k))) ∧
      possibility_vec (List.replicate 16 ((0 : Nat), (1 : Nat))) ∉
        crack zeroTarget identDiffusion identConf 1 := by
  refine ⟨crack_identity_zero, ?_, ?_⟩
  · rw [identity_factors, mem_multi_cartesian_product]
    refine forall₂_replicate ?_ 16
    rw [List.mem_map]
    exact ⟨1, by simp, rfl⟩
  · rw [crack_identity_zero]
    intro h
    rw [List.mem_singleton] at h
    exact absurd h (by decide)

/-- C8: when some of the first 16 target bytes has an empty stage-3 match
set, the Cartesian product is empty and `crack` returns `[]` as a normal
value (the embedding is total: no error path exists). -/
theorem C8_empty_match_propagation {target diffusion conf : Nat → Nat} {rounds : Nat}
    (h : ∃ k, k < 16 ∧ xor_match conf (target k) = []) :
    crack target diffusion conf rounds = [] :=
  crack_of_empty_match h

/-- Witness for C8: the all-zero confusion table has no pair xoring to 1,
so `crack` on `oneTarget` returns `[]`. -/
theorem C8_empty_match_propagation_witness :
    crack oneTarget identDiffusion zeroConf 1 = [] :=
  C8_empty_match_propagation ⟨0, by omega, by
    rw [show oneTarget 0 = 1 from rfl]
    exact xor_match_zeroConf_one⟩

/-- C9: every input byte `c < 256` lands in the bucket of its image
`conf c`, and the table depends only on the first half of the confusion
table (indices below 256), so the second half never affects the lookup. -/
theorem C9_lookup_complete (conf : Nat → Nat) :
    (∀ c, c < 256 → conf c < 256 → c ∈ (build_lookup_table conf).getD (conf c) []) ∧
    (∀ conf' : Nat → Nat, (∀ x, x < 256 → conf x = conf' x) →
      build_lookup_table conf = build_lookup_table conf') := by
  constructor
  · intro c hc hb
    exact (mem_build_lookup_table hb).mpr ⟨hc, rfl⟩
  · intro conf' h
    exact build_lookup_table_congr h

/-- C10: two targets agreeing on bytes 0..15 give identical `crack` results
for every diffusion, confusion and round count — the last 16 target bytes
never influence the outcome. -/
theorem C10_tail_independence {t1 t2 diffusion conf : Nat → Nat} {rounds : Nat}
    (h : ∀ k, k < 16 → t1 k = t2 k) :
    crack t1 diffusion conf rounds = crack t2 diffusion conf rounds :=
  crack_congr_target h

/-- Witness for C10: `zeroTarget` and `tailTarget` differ only at byte 16
and crack agrees on them. -/
theorem C10_tail_independence_witness :
    crack zeroTarget identDiffusion identConf 1 =
      crack tailTarget identDiffusion identConf 1 :=
  C10_tail_independence (by decide)
